import Mathlib

/-!
# ADS1015_async: a shallow embedding of the asynchronous ADS1015 driver

The definitions below follow `src/ADS1015_async.cpp` and `src/ADS1015_async.h`
statement by statement.

Conventions of the embedding.

* The target is an 8-bit AVR Arduino: `byte` is 8 bits, `int` is 16 bits,
  `long` and `unsigned long` are 32 bits.  Machine integers are natural
  numbers (or integers, for the signed `long` sample) with the reduction
  `% 256` resp. `% 4294967296` written at every place where the C code stores
  into a variable of that width and the value could leave the range.
* The `float` members `_voltage` and `_gain` are exact rationals: the decimal
  literals of the source are the corresponding fractions and the product
  `(float)result * _gain` is the exact product (rounding is not modelled).
* The two-wire bus (`Wire`) is an external collaborator.  What the bus answers
  during one call is an input of the model (`WireReplies`), and every
  transaction the driver issues is recorded in an output list of `BusOp`.
* Loops are recursive functions with a fuel argument equal to the trip bound of
  the C loop; the loop condition is still tested at every iteration.
-/

namespace ADS1015

/-! ## Machine integers -/

/-- Storing into a `byte` (8-bit unsigned) variable. -/
def byte (n : Nat) : Nat := n % 256

/-- Storing into an `unsigned long` (32-bit unsigned) variable. -/
def ulong (n : Nat) : Nat := n % 4294967296

/-- The Arduino macro `bitClear(value, bit)`, `((value) &= ~(1UL << (bit)))`, on a
32-bit `unsigned long`. -/
def bitClear (value bit : Nat) : Nat :=
  value &&& (4294967295 ^^^ ulong (1 <<< bit))

/-- The Arduino macro `abs(x)`, `((x)>0?(x):-(x))`. -/
def cAbs (x : Int) : Int := if x > 0 then x else -x

/-! ## Driver state (`class ADS1015_async`, private members) -/

/-- The private data members of `ADS1015_async`. -/
structure Driver where
  _I2Caddr : Nat
  _inputSelect : Nat
  _autoGainAdjust : Nat
  _setPGA : Nat
  _currentPGA : Nat
  _available : Nat
  _voltage : ℚ
  _gain : ℚ
  _precision : Nat
  PGA : Nat
deriving DecidableEq

/-- The members hold values of their C types: bytes below 256, `unsigned long`
words below 2^32. -/
def Driver.wf (s : Driver) : Prop :=
  s._I2Caddr < 256 ∧ s._inputSelect < 256 ∧ s._autoGainAdjust < 256 ∧
  s._setPGA < 4294967296 ∧ s._currentPGA < 4294967296 ∧ s._available < 256 ∧
  s._precision < 256 ∧ s.PGA < 256

instance (s : Driver) : Decidable s.wf := by
  unfold Driver.wf; infer_instance

/-- Register selector `const byte configReg = B01`. -/
def configReg : Nat := 1

/-- Register selector `const byte conversReg = B00`. -/
def conversReg : Nat := 0

/-! ## The bus -/

/-- One transaction issued on the two-wire bus. -/
inductive BusOp where
  /-- The sequence `beginTransmission(addr); write(b)...; endTransmission()`. -/
  | write (addr : Nat) (bytes : List Nat)
  /-- The call `requestFrom(addr, quantity)`. -/
  | requestFrom (addr : Nat) (quantity : Nat)
deriving DecidableEq, Repr

/-- What the bus answers during one `poll()` call, in program order. -/
structure WireReplies where
  /-- `Wire.endTransmission()` after pointing to the config register (0 = success). -/
  statusPtrEnd : Nat
  /-- `Wire.available()` after `requestFrom(addr, 1)`. -/
  statusAvail : Nat
  /-- `Wire.read()`: most significant byte of the config register. -/
  statusByte : Nat
  /-- `Wire.endTransmission()` after pointing to the conversion register. -/
  resultPtrEnd : Nat
  /-- `Wire.available()` after `requestFrom(addr, 2)`. -/
  resultAvail : Nat
  /-- First `Wire.read()` of the conversion register. -/
  resultHi : Nat
  /-- Second `Wire.read()` of the conversion register. -/
  resultLo : Nat
  /-- `Wire.endTransmission()` of the start-conversion write. -/
  startEnd : Nat
deriving DecidableEq

/-! ## `clearAGAnibble` -/

/-- `clearAGAnibble(pga, nibbleNr)`: `for (j = 0; j < 4; j++) bitClear(pga, 4 * nibbleNr + j)`. -/
def clearAGAnibble (pga nibbleNr : Nat) : Nat :=
  (List.range 4).foldl (fun p j => bitClear p (4 * nibbleNr + j)) pga

/-! ## `startConversion` -/

/-- The loop `for (i = 0; i < 8; i++) { if (_available & (1 << i)) break; }`; the
value is `i` after the loop. -/
def scanAvailable (available : Nat) : Nat → Nat → Nat
  | 0, i => i
  | fuel + 1, i =>
    if i < 8 then
      if available &&& (1 <<< i) ≠ 0 then i
      else scanAvailable available fuel (i + 1)
    else i

/-- The loop
`for (i = 0; i < 8; i++) { MUX = (MUX + 1) % 8; if (_inputSelect & (1 << MUX)) break; }`;
the value is `(i, MUX)` after the loop. -/
def scanInput (inputSelect : Nat) : Nat → Nat → Nat → Nat × Nat
  | 0, i, MUX => (i, MUX)
  | fuel + 1, i, MUX =>
    if i < 8 then
      if inputSelect &&& (1 <<< ((MUX + 1) % 8)) ≠ 0 then (i, (MUX + 1) % 8)
      else scanInput inputSelect fuel (i + 1) ((MUX + 1) % 8)
    else (i, MUX)

/-- The channel scan of `startConversion()` (both loops): `(i, MUX)` as they stand
at the test `if (i > 7) return (-4)`. -/
def scanNext (inputSelect available : Nat) : Nat × Nat :=
  let i := scanAvailable available 8 0
  let i := if i > 7 then 0xFF else i
  scanInput inputSelect 8 0 i

/-- The config bytes `(configMSb, configLSb)` prepared by `startConversion()`. -/
def configBytes (MUX PGA : Nat) : Nat × Nat :=
  let configMSb := 0x81
  let configLSb := 0x03
  let configMSb := byte (configMSb ||| (MUX <<< 4))
  let configMSb := byte (configMSb ||| (PGA <<< 1))
  let configLSb := byte (configLSb ||| (0x7 <<< 5))
  (configMSb, configLSb)

/-- `startConversion()`.  The argument `endTx` is what `Wire.endTransmission()`
answers.  The result is the returned byte (`-4` is 252, `-2` is 254), the new
state and the bus transactions issued. -/
def startConversion (s : Driver) (endTx : Nat) : Nat × Driver × List BusOp :=
  let r := scanNext s._inputSelect s._available
  let i := r.1
  let MUX := r.2
  if i > 7 then (252, s, [])
  else
    let PGA := (s._currentPGA >>> (4 * MUX)) &&& 0x7
    let cfg := configBytes MUX PGA
    let s1 := { s with PGA := PGA }
    let ops := [BusOp.write s._I2Caddr [configReg, cfg.1, cfg.2]]
    if endTx ≠ 0 then (254, s1, ops)
    else (0, s1, ops)

/-! ## `poll` -/

/-- The sample composed from the two bytes of the conversion register:
`result = hi << 4; result |= lo >> 4; if (result & 0x0800) result = -1 - (result ^ 0xFFF)`. -/
def composeResult (hi lo : Nat) : Int :=
  let result : Nat := (hi <<< 4) ||| (lo >>> 4)
  if result &&& 0x0800 ≠ 0 then -1 - (((result ^^^ 0xFFF : Nat)) : Int)
  else (result : Int)

/-- The `switch (PGA)` of `poll()`: `(_gain, _precision)`. -/
def gainTable (PGA : Nat) : ℚ × Nat :=
  match PGA with
  | 0 => (3 / 1000, 3)
  | 1 => (2 / 1000, 3)
  | 2 => (1 / 1000, 3)
  | 3 => (5 / 10000, 4)
  | 4 => (25 / 100000, 5)
  | _ => (125 / 1000000, 6)

/-- The gain-increase loop
`for (i = PGA; i < 5; i++) { if (absResult < 6144 / j) { PGA = PGA + 1; j = 2 * j; } else break; }`;
the value is `(PGA, j)` after the loop. -/
def gainLoop (absResult : Int) : Nat → Nat → Nat → Nat → Nat × Nat
  | 0, _, PGA, j => (PGA, j)
  | fuel + 1, i, PGA, j =>
    if i < 5 then
      if absResult < ((6144 / j : Nat) : Int) then
        gainLoop absResult fuel (byte (i + 1)) (byte (PGA + 1)) (byte (2 * j))
      else (PGA, j)
    else (PGA, j)

/-- The body of `if (_autoGainAdjust & (1 << MUX)) { ... }` up to the store into
`_currentPGA`: the new `PGA` and the flag `returnResult`. -/
def adjustPGA (setPGA MUX PGA : Nat) (result : Int) : Nat × Bool :=
  let absResult := cAbs result
  if absResult < 1024 then
    let j := if PGA = 0 then 6 else 8
    let PGA := (gainLoop absResult 5 PGA PGA j).1
    let i := byte ((setPGA >>> (4 * MUX)) &&& 0x7)
    if PGA > i then (i, true) else (PGA, true)
  else
    if absResult > 1945 then
      if absResult ≥ 2045 then (0, false)
      else (byte (PGA + 256 - 1), true)
    else (PGA, true)

/-- The two statements that store `PGA` into nibble `MUX` of `_currentPGA`:
`_currentPGA = clearAGAnibble(_currentPGA, MUX);`
`_currentPGA = _currentPGA + (long(PGA) << (4 * MUX));`. -/
def storePGA (currentPGA MUX PGA : Nat) : Nat :=
  ulong (clearAGAnibble currentPGA MUX + ulong (PGA <<< (4 * MUX)))

/-- The gain adjustment of `poll()` (the whole `if (_autoGainAdjust & (1 << MUX))`
statement): `(PGA, _currentPGA, returnResult)` after it. -/
def adjustGain (s : Driver) (MUX PGA : Nat) (result : Int) : Nat × Nat × Bool :=
  if s._autoGainAdjust &&& (1 <<< MUX) ≠ 0 then
    let r := adjustPGA s._setPGA MUX PGA result
    (r.1, storePGA s._currentPGA MUX r.1, r.2)
  else (PGA, s._currentPGA, true)

/-- The gain code the scheduler reads back for channel `MUX`:
`(_currentPGA >> (4 * MUX)) & 0x7`. -/
def readPGA (currentPGA MUX : Nat) : Nat := (currentPGA >>> (4 * MUX)) &&& 0x7

/-- The part of `poll()` after both registers have been read: decode, gain table,
gain adjustment, voltage, availability bit, next conversion, return. -/
def pollFinish (s : Driver) (configMSb : Nat) (result : Int) (startEnd : Nat) :
    Nat × Driver × List BusOp :=
  let MUX := (configMSb &&& 0x70) >>> 4
  let PGA := (configMSb &&& 0x0E) >>> 1
  let g := gainTable PGA
  let a := adjustGain s MUX PGA result
  let s1 : Driver :=
    { s with
      PGA := a.1
      _gain := g.1
      _precision := g.2
      _currentPGA := a.2.1
      _voltage := (result : ℚ) * g.1
      _available := byte (1 <<< MUX) }
  let c := startConversion s1 startEnd
  if c.1 ≠ 0 then (c.1, c.2.1, c.2.2)
  else
    if a.2.2 then (byte (MUX + 1), c.2.1, c.2.2)
    else (0, { c.2.1 with _available := 0 }, c.2.2)

/-- `poll()`.  The result is the returned byte (`-2` is 254, `-3` is 253, `-4` is
252), the new state and the bus transactions issued, in order. -/
def poll (s : Driver) (w : WireReplies) : Nat × Driver × List BusOp :=
  if s._inputSelect = 0 then (252, s, [])
  else if s._available ≠ 0 then
    (byte (scanAvailable s._available 8 0 + 1), s, [])
  else
    let op1 := BusOp.write s._I2Caddr [configReg]
    if w.statusPtrEnd ≠ 0 then (254, s, [op1])
    else
      let op2 := BusOp.requestFrom s._I2Caddr 1
      if w.statusAvail ≠ 1 then (253, s, [op1, op2])
      else
        let configMSb := byte w.statusByte
        if configMSb &&& 0x80 = 0 then (0, s, [op1, op2])
        else
          let op3 := BusOp.write s._I2Caddr [conversReg]
          if w.resultPtrEnd ≠ 0 then (254, s, [op1, op2, op3])
          else
            let op4 := BusOp.requestFrom s._I2Caddr 2
            if w.resultAvail ≠ 2 then (253, s, [op1, op2, op3, op4])
            else
              let result := composeResult w.resultHi w.resultLo
              let f := pollFinish s configMSb result w.startEnd
              (f.1, f.2.1, [op1, op2, op3, op4] ++ f.2.2)

/-! ## Accessors and initialisation -/

/-- `getVoltage()`: the returned value, the new state and the bus transactions
issued (the function makes no `Wire` call). -/
def getVoltage (s : Driver) : ℚ × Driver × List BusOp :=
  (s._voltage, { s with _available := 0 }, [])

/-- `getGain()`. -/
def getGain (s : Driver) : ℚ := s._gain

/-- `getPrecision()`. -/
def getPrecision (s : Driver) : Nat := s._precision

/-- The first loop of `begin()`: every nibble of `_setPGA` above 5 is replaced by 5. -/
def normalizeSetPGA (setPGA : Nat) : Nat :=
  (List.range 8).foldl
    (fun p i =>
      if (p >>> (4 * i)) &&& 0xF > 0x5 then
        ulong (clearAGAnibble p i ||| ulong (0x5 <<< (4 * i)))
      else p)
    setPGA

/-- The second loop of `begin()`: the nibbles of the auto-gain inputs are cleared. -/
def initCurrentPGA (autoGainAdjust setPGA : Nat) : Nat :=
  (List.range 8).foldl
    (fun p i => if autoGainAdjust &&& (1 <<< i) ≠ 0 then clearAGAnibble p i else p)
    setPGA

/-- `begin()`.  `present` is what the presence check `Wire.endTransmission()`
answers, `endTx` the answer to the first start-conversion write. -/
def begin (s : Driver) (present endTx : Nat) : Nat × Driver × List BusOp :=
  let op0 := BusOp.write s._I2Caddr []
  if present ≠ 0 then (255, s, [op0])
  else
    let setPGA := normalizeSetPGA s._setPGA
    let s1 := { s with _setPGA := setPGA }
    let s2 := { s1 with _currentPGA := initCurrentPGA s1._autoGainAdjust setPGA }
    let c := startConversion s2 endTx
    (c.1, c.2.1, op0 :: c.2.2)

/-- The constructor `ADS1015_async(I2Caddr, inputSelect, autoGainAdjust, setPGA)`;
the members it does not assign are taken from `s0`. -/
def construct (s0 : Driver) (I2Caddr inputSelect autoGainAdjust setPGA : Nat) : Driver :=
  { s0 with
    _I2Caddr := byte I2Caddr
    _inputSelect := byte inputSelect
    _autoGainAdjust := byte autoGainAdjust
    _setPGA := ulong setPGA
    _available := 0 }

/-! ## Specification-side notions -/

/-- The thresholds `6144 / j` of the gain-increase search as the specification
lists them: `1024 / 2^i` from code 0 (divisors 6, 12, 24, 48, 96) and `768 / 2^i`
from any other code (divisors 8, 16, 32, 64). -/
def threshold (c i : Nat) : Nat := if c = 0 then 1024 / 2 ^ i else 768 / 2 ^ i

/-- The test `_inputSelect & (1 << MUX)` of the channel scan: input `c` is selected
in the mask. -/
def enabled (mask c : Nat) : Prop := mask &&& (1 <<< c) ≠ 0

instance (mask c : Nat) : Decidable (enabled mask c) := by
  unfold enabled; infer_instance

/-- How the driver remembers the last channel: `_available` is 0 before the first
conversion and `1 << MUX` after a sample of input `MUX`. -/
def availableOf : Option Nat → Nat
  | none => 0
  | some m => byte (1 <<< m)

/-- The start position of the cyclic scan in the words of the specification:
`last + 1`, or 0 when there is no last channel. -/
def scanStart : Option Nat → Nat
  | none => 0
  | some m => m + 1

/-- The scheduler fed back with its own output: the channel chosen by the scan of
`startConversion()` when the last sample came from input `last`. -/
def nextChannel (mask last : Nat) : Nat := (scanNext mask (byte (1 <<< last))).2

/-- The sequence of channels chosen by repeated scans, starting from `last`. -/
def channelSeq (mask : Nat) (last : Option Nat) (t : Nat) : Nat :=
  (nextChannel mask)^[t] (scanNext mask (availableOf last)).2

/-- The number of selected inputs of a mask. -/
def enabledCount (mask : Nat) : Nat :=
  ((List.range 8).filter (fun c => decide (enabled mask c))).length

/-- The first `enabledCount mask` channels chosen by the fed-back scheduler after
channel `x` has produced a sample, `x` itself first. -/
def orbit (mask x : Nat) : List Nat :=
  (List.range (enabledCount mask)).map (fun j => (nextChannel mask)^[j] x)

/-- Channel `y` is the next selected channel after `x` in ascending cyclic order:
either the least selected index above `x`, or, when `x` is the largest selected
index, the smallest one. -/
def cyclicSucc (mask x y : Nat) : Prop :=
  (x < y ∧ ∀ c, c < 8 → enabled mask c → ¬ (x < c ∧ c < y)) ∨
  (y ≤ x ∧ ∀ c, c < 8 → enabled mask c → y ≤ c ∧ c ≤ x)

instance (mask x y : Nat) : Decidable (cyclicSucc mask x y) := by
  unfold cyclicSucc; infer_instance

/-- The list `l` enumerates the selected channels of the mask without repetition. -/
def enumerates (mask : Nat) (l : List Nat) : Prop :=
  l.Nodup ∧ (∀ c, c ∈ l → c < 8 ∧ enabled mask c) ∧ (∀ c, c < 8 → enabled mask c → c ∈ l)

instance (mask : Nat) (l : List Nat) : Decidable (enumerates mask l) := by
  unfold enumerates; infer_instance

/-- Consecutive `poll()` calls without `getVoltage()` in between, one element of
`ws` per call: the returned bytes, the final state and all bus transactions. -/
def pollMany (s : Driver) : List WireReplies → List Nat × Driver × List BusOp
  | [] => ([], s, [])
  | w :: ws =>
    ((poll s w).1 :: (pollMany (poll s w).2.1 ws).1,
      (pollMany (poll s w).2.1 ws).2.1,
      (poll s w).2.2 ++ (pollMany (poll s w).2.1 ws).2.2)

/-- Nibble `k` of a packed gain word, `word >> (4 * k) & 0xF`, as `begin()` reads
it. -/
def nibble (word k : Nat) : Nat := (word >>> (4 * k)) &&& 0xF

/-- The same input re-expressed in counts at another gain code: a magnitude of `a`
counts at code `c` is `a * scale c / scale c'` counts at code `c'`, with the scales
of the gain table. -/
def recount (c c' : Nat) (a : ℚ) : ℚ := a * (gainTable c).1 / (gainTable c').1

/-- The scale of the gain table in microvolts per count. -/
def microVolts (PGA : Nat) : Nat :=
  match PGA with
  | 0 => 3000
  | 1 => 2000
  | 2 => 1000
  | 3 => 500
  | 4 => 250
  | _ => 125

/-! ## Concrete inputs used by the evaluations below -/

/-- A driver with only input 0 selected, auto gain on input 0, ceiling 0 everywhere
and every gain code at 0, as `begin()` leaves it for `setPGA = 0`. -/
def demoDriver : Driver :=
  { _I2Caddr := 0x48, _inputSelect := 1, _autoGainAdjust := 1, _setPGA := 0,
    _currentPGA := 0, _available := 0, _voltage := 0, _gain := 0, _precision := 0, PGA := 0 }

/-- The bus answers of a call in which every transaction succeeds and the device
reports a finished conversion of input 0 at gain code 0 with the raw sample
`0x5DC = 1500`. -/
def demoReplies : WireReplies :=
  { statusPtrEnd := 0, statusAvail := 1, statusByte := 0x80, resultPtrEnd := 0,
    resultAvail := 2, resultHi := 0x5D, resultLo := 0xC0, startEnd := 0 }

/-- As `demoReplies`, but the start-conversion write is not acknowledged
(`endTransmission()` answers 2). -/
def demoRepliesStartFail : WireReplies := { demoReplies with startEnd := 2 }

/-- As `demoReplies`, but the pointer write to the config register fails
(`endTransmission()` answers 4). -/
def demoRepliesStatusFail : WireReplies := { demoReplies with statusPtrEnd := 4 }

/-- A finished conversion of input 0 at gain code 0 with the raw sample
`0x7FF = 2047` (overflow), every transaction successful. -/
def overflowReplies : WireReplies := { demoReplies with resultHi := 0x7F, resultLo := 0xF0 }

/-- As `overflowReplies`, but the start-conversion write is not acknowledged. -/
def overflowRepliesStartFail : WireReplies := { overflowReplies with startEnd := 2 }

/-- The scenario of the specification: input 0 selected with auto gain, ceiling 5,
current gain code 0. -/
def scenarioDriver : Driver := { demoDriver with _setPGA := 5 }

/-- A finished conversion of input 0 at gain code 0 with the raw sample
`0x064 = 100`, every transaction successful. -/
def scenarioReplies : WireReplies := { demoReplies with resultHi := 0x06, resultLo := 0x40 }

/-- A finished conversion of input 0 at gain code 0 with the raw sample
`0x7D0 = 2000` (decrease band), every transaction successful. -/
def decreaseReplies : WireReplies := { demoReplies with resultHi := 0x7D, resultLo := 0x00 }

/-- Inputs 0, 1 and 2 selected, auto gain on input 0 only, ceilings 0, 1 and 1, and
the gain codes 0, 1 and 0 for the inputs 0, 1 and 2. -/
def threeInputDriver : Driver :=
  { demoDriver with _inputSelect := 7, _setPGA := 0x110, _currentPGA := 0x10 }

/-! ## Bit-level lemmas on the packed gain word -/

theorem bitClear_testBit (value bit i : Nat) (hb : bit < 32) :
    (bitClear value bit).testBit i = (value.testBit i && (decide (i < 32) && !decide (i = bit))) := by
  have h1 : ulong (1 <<< bit) = 2 ^ bit := by
    unfold ulong
    rw [Nat.shiftLeft_eq, Nat.one_mul]
    apply Nat.mod_eq_of_lt
    calc 2 ^ bit < 2 ^ 32 := Nat.pow_lt_pow_right (by norm_num) hb
      _ = 4294967296 := by norm_num
  have h2 : (4294967295 : Nat) = 2 ^ 32 - 1 := by norm_num
  unfold bitClear
  rw [h1, h2, Nat.testBit_and, Nat.testBit_xor, Nat.testBit_two_pow_sub_one, Nat.testBit_two_pow]
  by_cases h3 : i < 32 <;> by_cases h4 : bit = i
  · subst h4; simp [h3]
  · have h5 : ¬ i = bit := fun h => h4 h.symm
    simp [h3, h4, h5]
  · subst h4; omega
  · have h5 : ¬ i = bit := fun h => h4 h.symm
    simp [h3, h4, h5]

theorem clearAGAnibble_testBit (pga k i : Nat) (hk : k ≤ 7) :
    (clearAGAnibble pga k).testBit i =
      (pga.testBit i && (decide (i < 32) && !(decide (4 * k ≤ i) && decide (i < 4 * k + 4)))) := by
  unfold clearAGAnibble
  simp only [List.range, List.range.loop, List.foldl]
  rw [bitClear_testBit _ _ _ (by omega), bitClear_testBit _ _ _ (by omega),
    bitClear_testBit _ _ _ (by omega), bitClear_testBit _ _ _ (by omega)]
  by_cases h0 : pga.testBit i <;> by_cases h1 : i < 32 <;> simp [h0, h1]
  by_cases h2 : 4 * k ≤ i <;> by_cases h3 : i < 4 * k + 4 <;> simp [h2, h3] <;> omega

theorem clearAGAnibble_mod (pga k : Nat) (hk : k ≤ 7) :
    clearAGAnibble pga k % 2 ^ (4 * k + 4) = clearAGAnibble pga k % 2 ^ (4 * k) := by
  apply Nat.eq_of_testBit_eq
  intro i
  rw [Nat.testBit_mod_two_pow, Nat.testBit_mod_two_pow, clearAGAnibble_testBit _ _ _ hk]
  by_cases h2 : 4 * k ≤ i <;> by_cases h3 : i < 4 * k + 4 <;> simp [h2, h3] <;> intros <;> omega

theorem clearAGAnibble_lt (pga k : Nat) (hk : k ≤ 7) : clearAGAnibble pga k < 4294967296 := by
  have h : (4294967296 : Nat) = 2 ^ 32 := by norm_num
  rw [h]
  apply Nat.lt_pow_two_of_testBit
  intro i hi
  rw [clearAGAnibble_testBit _ _ _ hk]
  have : ¬ i < 32 := by omega
  simp [this]

theorem readPGA_storePGA (cur m p : Nat) (hm : m ≤ 7) :
    readPGA (storePGA cur m p) m = p % 8 := by
  have h := clearAGAnibble_mod cur m hm
  have h7 : (7 : Nat) = 2 ^ 3 - 1 := by norm_num
  unfold readPGA storePGA ulong
  rw [h7, Nat.and_pow_two_sub_one_eq_mod, Nat.shiftRight_eq_div_pow, Nat.shiftLeft_eq]
  generalize clearAGAnibble cur m = A at h ⊢
  interval_cases m <;> norm_num at h ⊢ <;> omega

/-! ## The gain adjustment -/

theorem cAbs_eq_abs (x : Int) : cAbs x = |x| := by
  unfold cAbs
  split
  · next h => exact (abs_of_pos h).symm
  · next h => exact (abs_of_nonpos (not_lt.mp h)).symm

/-- Increasing the fuel of the gain loop beyond the trip bound `5 - i` does not
change its value: the loop always ends by its own condition. -/
theorem gainLoop_fuel (a : Int) (n : Nat) :
    ∀ fuel i PGA j, i < 256 → 5 - i ≤ fuel → gainLoop a (fuel + n) i PGA j = gainLoop a fuel i PGA j := by
  intro fuel
  induction fuel with
  | zero =>
    intro i PGA j _ h
    have h5 : ¬ i < 5 := by omega
    cases n with
    | zero => rfl
    | succ n => simp [gainLoop, h5]
  | succ fuel ih =>
    intro i PGA j hi h
    rw [Nat.add_right_comm]
    simp only [gainLoop]
    by_cases h5 : i < 5
    · have h6 : byte (i + 1) = i + 1 := by unfold byte; omega
      rw [h6, ih (i + 1) _ _ (by omega) (by omega)]
    · simp [h5]

theorem gainLoop_code0 (a : Int) :
    gainLoop a 5 0 0 6 =
      if a < 1024 then if a < 512 then if a < 256 then if a < 128 then if a < 64 then (5, 192)
        else (4, 96) else (3, 48) else (2, 24) else (1, 12) else (0, 6) := by
  simp [gainLoop, byte]

theorem gainLoop_code1 (a : Int) :
    gainLoop a 5 1 1 8 =
      if a < 768 then if a < 384 then if a < 192 then if a < 96 then (5, 128)
        else (4, 64) else (3, 32) else (2, 16) else (1, 8) := by
  simp [gainLoop, byte]

theorem gainLoop_code2 (a : Int) :
    gainLoop a 5 2 2 8 =
      if a < 768 then if a < 384 then if a < 192 then (5, 64)
        else (4, 32) else (3, 16) else (2, 8) := by
  simp [gainLoop, byte]

theorem gainLoop_code3 (a : Int) :
    gainLoop a 5 3 3 8 =
      if a < 768 then if a < 384 then (5, 32) else (4, 16) else (3, 8) := by
  simp [gainLoop, byte]

theorem gainLoop_code4 (a : Int) :
    gainLoop a 5 4 4 8 = if a < 768 then (5, 16) else (4, 8) := by
  simp [gainLoop, byte]

theorem gainLoop_code_ge5 (a : Int) (c j : Nat) (hc : 5 ≤ c) :
    gainLoop a 5 c c j = (c, j) := by
  have h : ¬ c < 5 := by omega
  simp [gainLoop, h]

/-- Ceiling read of `poll()`: a nibble of `_setPGA` that is at most 5 is read back
unchanged by `_setPGA >> (4 * MUX) & 0x7`. -/
theorem ceiling_read (setPGA MUX L : Nat) (hL : (setPGA >>> (4 * MUX)) &&& 0xF = L) (hL5 : L ≤ 5) :
    byte ((setPGA >>> (4 * MUX)) &&& 0x7) = L := by
  have h15 : (0xF : Nat) = 2 ^ 4 - 1 := by norm_num
  have h7 : (0x7 : Nat) = 2 ^ 3 - 1 := by norm_num
  rw [h15, Nat.and_pow_two_sub_one_eq_mod] at hL
  rw [h7, Nat.and_pow_two_sub_one_eq_mod]
  unfold byte
  generalize setPGA >>> (4 * MUX) = x at hL ⊢
  norm_num at hL ⊢
  omega

theorem adjustGain_auto (s : Driver) (MUX PGA : Nat) (result : Int)
    (hauto : s._autoGainAdjust &&& (1 <<< MUX) ≠ 0) :
    adjustGain s MUX PGA result =
      ((adjustPGA s._setPGA MUX PGA result).1,
        storePGA s._currentPGA MUX (adjustPGA s._setPGA MUX PGA result).1,
        (adjustPGA s._setPGA MUX PGA result).2) := by
  unfold adjustGain
  rw [if_pos hauto]

/-- In the decrease band a code of at least 1 is lowered by exactly one. -/
theorem adjustPGA_decrease (setPGA MUX c : Nat) (r : Int) (hc1 : 1 ≤ c) (hc : c ≤ 7)
    (hlo : 1945 < |r|) (hhi : |r| < 2045) :
    adjustPGA setPGA MUX c r = (c - 1, true) := by
  unfold adjustPGA
  simp only [cAbs_eq_abs]
  have h1 : ¬ |r| < 1024 := by omega
  have h2 : ¬ |r| ≥ 2045 := by omega
  have h3 : byte (c + 256 - 1) = c - 1 := by unfold byte; omega
  rw [if_neg h1, if_pos hlo, if_neg h2, h3]

/-- In the decrease band the code 0 wraps to 255 in the 8-bit variable `PGA`. -/
theorem adjustPGA_underflow (setPGA MUX : Nat) (r : Int)
    (hlo : 1945 < |r|) (hhi : |r| < 2045) :
    adjustPGA setPGA MUX 0 r = (255, true) := by
  unfold adjustPGA
  simp only [cAbs_eq_abs]
  have h1 : ¬ |r| < 1024 := by omega
  have h2 : ¬ |r| ≥ 2045 := by omega
  simp [h1, hlo, h2, byte]

theorem adjustPGA_overflow (setPGA MUX c : Nat) (r : Int) (h : 2045 ≤ |r|) :
    adjustPGA setPGA MUX c r = (0, false) := by
  unfold adjustPGA
  simp only [cAbs_eq_abs]
  have h1 : ¬ |r| < 1024 := by omega
  have h2 : 1945 < |r| := by omega
  simp [h1, h2, h]

theorem adjustPGA_hold (setPGA MUX c : Nat) (r : Int) (hlo : 1024 ≤ |r|) (hhi : |r| ≤ 1945) :
    adjustPGA setPGA MUX c r = (c, true) := by
  unfold adjustPGA
  simp only [cAbs_eq_abs]
  have h1 : ¬ |r| < 1024 := by omega
  have h2 : ¬ 1945 < |r| := by omega
  simp [h1, h2]

theorem adjustPGA_increase (setPGA MUX c : Nat) (r : Int) (h : |r| < 1024) :
    adjustPGA setPGA MUX c r =
      (if (gainLoop |r| 5 c c (if c = 0 then 6 else 8)).1 > byte ((setPGA >>> (4 * MUX)) &&& 0x7)
        then byte ((setPGA >>> (4 * MUX)) &&& 0x7)
        else (gainLoop |r| 5 c c (if c = 0 then 6 else 8)).1, true) := by
  unfold adjustPGA
  simp only [cAbs_eq_abs]
  rw [if_pos h]
  by_cases hgt : (gainLoop |r| 5 c c (if c = 0 then 6 else 8)).1 >
      byte ((setPGA >>> (4 * MUX)) &&& 0x7)
  · rw [if_pos hgt, if_pos hgt]
  · rw [if_neg hgt, if_neg hgt]

/-- The overflow flag is raised only in the overflow branch. -/
theorem adjustPGA_flag (setPGA MUX c : Nat) (r : Int) :
    (adjustPGA setPGA MUX c r).2 = false ↔ 2045 ≤ |r| := by
  constructor
  · intro h
    by_contra hn
    by_cases h1 : |r| < 1024
    · rw [adjustPGA_increase _ _ _ _ h1] at h
      simp at h
    · by_cases h2 : |r| ≤ 1945
      · rw [adjustPGA_hold _ _ _ _ (by omega) h2] at h
        simp at h
      · unfold adjustPGA at h
        simp only [cAbs_eq_abs] at h
        have h3 : 1945 < |r| := by omega
        have h4 : ¬ |r| ≥ 2045 := hn
        simp [h1, h3, h4] at h
  · intro h
    rw [adjustPGA_overflow _ _ _ _ h]

/-- A stop position of the search is the largest run of satisfied thresholds. -/
theorem search_maximal (c k : Nat) (a : Int)
    (hstop : k < 5 - c → ¬ a < (threshold c k : Int)) :
    ∀ k', k' ≤ 5 - c → (∀ i, i < k' → a < (threshold c i : Int)) → k' ≤ k := by
  intro k' hk' h
  by_contra hlt
  exact hstop (by omega) (h k (by omega))

/-- The gain-increase loop started at code `c ≤ 5` raises the code by the length
`k` of the longest run of satisfied thresholds, and the divisor is doubled `k`
times without leaving the 8-bit range. -/
theorem gainLoop_search (c : Nat) (a : Int) (hc : c ≤ 5) :
    ∃ k, k ≤ 5 - c ∧ (∀ i, i < k → a < (threshold c i : Int)) ∧
      (k < 5 - c → ¬ a < (threshold c k : Int)) ∧
      gainLoop a 5 c c (if c = 0 then 6 else 8) = (c + k, (if c = 0 then 6 else 8) * 2 ^ k) ∧
      (if c = 0 then 6 else 8) * 2 ^ k < 256 := by
  interval_cases c
  · rw [if_pos rfl]
    rw [gainLoop_code0]
    split_ifs with h1 h2 h3 h4 h5
    · refine ⟨5, by decide, ?_, by intro h; omega, by decide, by decide⟩
      intro i hi; interval_cases i <;> simp [threshold] <;> omega
    · refine ⟨4, by decide, ?_, ?_, by decide, by decide⟩
      · intro i hi; interval_cases i <;> simp [threshold] <;> omega
      · intro _; simp [threshold]; omega
    · refine ⟨3, by decide, ?_, ?_, by decide, by decide⟩
      · intro i hi; interval_cases i <;> simp [threshold] <;> omega
      · intro _; simp [threshold]; omega
    · refine ⟨2, by decide, ?_, ?_, by decide, by decide⟩
      · intro i hi; interval_cases i <;> simp [threshold] <;> omega
      · intro _; simp [threshold]; omega
    · refine ⟨1, by decide, ?_, ?_, by decide, by decide⟩
      · intro i hi; interval_cases i; simp [threshold]; omega
      · intro _; simp [threshold]; omega
    · refine ⟨0, by decide, ?_, ?_, by decide, by decide⟩
      · intro i hi; omega
      · intro _; simp [threshold]; omega
  · rw [if_neg (by decide)]
    rw [gainLoop_code1]
    split_ifs with h1 h2 h3 h4
    · refine ⟨4, by decide, ?_, by intro h; omega, by decide, by decide⟩
      intro i hi; interval_cases i <;> simp [threshold] <;> omega
    · refine ⟨3, by decide, ?_, ?_, by decide, by decide⟩
      · intro i hi; interval_cases i <;> simp [threshold] <;> omega
      · intro _; simp [threshold]; omega
    · refine ⟨2, by decide, ?_, ?_, by decide, by decide⟩
      · intro i hi; interval_cases i <;> simp [threshold] <;> omega
      · intro _; simp [threshold]; omega
    · refine ⟨1, by decide, ?_, ?_, by decide, by decide⟩
      · intro i hi; interval_cases i; simp [threshold]; omega
      · intro _; simp [threshold]; omega
    · refine ⟨0, by decide, ?_, ?_, by decide, by decide⟩
      · intro i hi; omega
      · intro _; simp [threshold]; omega
  · rw [if_neg (by decide)]
    rw [gainLoop_code2]
    split_ifs with h1 h2 h3
    · refine ⟨3, by decide, ?_, by intro h; omega, by decide, by decide⟩
      intro i hi; interval_cases i <;> simp [threshold] <;> omega
    · refine ⟨2, by decide, ?_, ?_, by decide, by decide⟩
      · intro i hi; interval_cases i <;> simp [threshold] <;> omega
      · intro _; simp [threshold]; omega
    · refine ⟨1, by decide, ?_, ?_, by decide, by decide⟩
      · intro i hi; interval_cases i; simp [threshold]; omega
      · intro _; simp [threshold]; omega
    · refine ⟨0, by decide, ?_, ?_, by decide, by decide⟩
      · intro i hi; omega
      · intro _; simp [threshold]; omega
  · rw [if_neg (by decide)]
    rw [gainLoop_code3]
    split_ifs with h1 h2
    · refine ⟨2, by decide, ?_, by intro h; omega, by decide, by decide⟩
      intro i hi; interval_cases i <;> simp [threshold] <;> omega
    · refine ⟨1, by decide, ?_, ?_, by decide, by decide⟩
      · intro i hi; interval_cases i; simp [threshold]; omega
      · intro _; simp [threshold]; omega
    · refine ⟨0, by decide, ?_, ?_, by decide, by decide⟩
      · intro i hi; omega
      · intro _; simp [threshold]; omega
  · rw [if_neg (by decide)]
    rw [gainLoop_code4]
    split_ifs with h1
    · refine ⟨1, by decide, ?_, by intro h; omega, by decide, by decide⟩
      intro i hi; interval_cases i; simp [threshold]; omega
    · refine ⟨0, by decide, ?_, ?_, by decide, by decide⟩
      · intro i hi; omega
      · intro _; simp [threshold]; omega
  · rw [gainLoop_code_ge5 _ _ _ (by decide)]
    exact ⟨0, by decide, by intro i hi; omega, by intro h; omega, by decide, by decide⟩

/-! ## Claims on the gain adjustment -/

/-- Outside the underflow case the code stored by the adjustment respects the
ceiling: for a ceiling nibble `L ≤ 5` and an echoed code `c ≤ L`, the code read
back is at most `L`, unless `c = 0` and the sample lies in the decrease band. -/
theorem adjustGain_le_ceiling (s : Driver) (MUX c L : Nat) (r : Int)
    (hMUX : MUX ≤ 7) (hauto : s._autoGainAdjust &&& (1 <<< MUX) ≠ 0)
    (hL : (s._setPGA >>> (4 * MUX)) &&& 0xF = L) (hL5 : L ≤ 5) (hc : c ≤ L)
    (hno : ¬ (c = 0 ∧ 1945 < |r| ∧ |r| < 2045)) :
    readPGA (adjustGain s MUX c r).2.1 MUX ≤ L := by
  rw [adjustGain_auto _ _ _ _ hauto]
  simp only []
  rw [readPGA_storePGA _ _ _ hMUX]
  apply le_trans (Nat.mod_le _ _)
  by_cases h1 : |r| < 1024
  · rw [adjustPGA_increase _ _ _ _ h1, ceiling_read _ _ _ hL hL5]
    simp only []
    split_ifs <;> omega
  · by_cases h2 : |r| ≤ 1945
    · rw [adjustPGA_hold _ _ _ _ (by omega) h2]; exact hc
    · by_cases h3 : 2045 ≤ |r|
      · rw [adjustPGA_overflow _ _ _ _ h3]; exact Nat.zero_le L
      · have hc1 : 1 ≤ c := by
          by_contra h0
          exact hno ⟨by omega, by omega, by omega⟩
        rw [adjustPGA_decrease _ _ _ _ hc1 (by omega) (by omega) (by omega)]
        simp only []
        omega

/-- C1 (evaluation at the failing input): on auto-gain channel 0 with ceiling 0 and
echoed code 0, the raw sample 2000 makes the adjustment leave `PGA = 255`; the
nibble stored for the channel is read back by the scheduler as code 7, which is
above the ceiling 0. -/
theorem C1_ceiling_exceeded_at_code0 :
    demoDriver._autoGainAdjust &&& (1 <<< 0) ≠ 0 ∧
    (demoDriver._setPGA >>> (4 * 0)) &&& 0xF = 0 ∧
    (adjustGain demoDriver 0 0 2000).1 = 255 ∧
    readPGA (adjustGain demoDriver 0 0 2000).2.1 0 = 7 := by
  decide

/-- C2 (evaluation at the failing input): for the echoed code 0 and a raw sample in
the decrease band (here 2000 and -2000) the statement `PGA = PGA - 1` wraps in the
8-bit variable: the new code is 255, not 0, overflow is not flagged, and with the
gain word `0x10` (channel 1 at code 1) the stored word is `0x10F`, so that channel 0
reads back as 7 and the codes of channels 1 and 2 are changed as well. -/
theorem C2_decrement_wraps_at_code0 :
    adjustPGA 0 0 0 2000 = (255, true) ∧ adjustPGA 0 0 0 (-2000) = (255, true) ∧
    storePGA 0x10 0 255 = 0x10F ∧
    readPGA (storePGA 0x10 0 255) 0 = 7 ∧
    readPGA 0x10 1 = 1 ∧ readPGA (storePGA 0x10 0 255) 1 = 0 ∧
    readPGA 0x10 2 = 0 ∧ readPGA (storePGA 0x10 0 255) 2 = 1 := by
  decide

/-- C7: on an auto-gain channel, for every echoed code and every raw sample (in
particular for the codes 0..7 and the samples -2048..2047), the adjustment flags
overflow (clears `returnResult`) exactly when `|raw| ≥ 2045`, and
when it does, `PGA` is 0 and the code stored for the channel reads back as 0. -/
theorem C7_overflow_iff (s : Driver) (MUX c : Nat) (r : Int)
    (hMUX : MUX ≤ 7) (hauto : s._autoGainAdjust &&& (1 <<< MUX) ≠ 0) :
    ((adjustGain s MUX c r).2.2 = false ↔ 2045 ≤ |r|) ∧
    (|r| ≤ 2044 → (adjustGain s MUX c r).2.2 = true) ∧
    ((adjustGain s MUX c r).2.2 = false →
      (adjustGain s MUX c r).1 = 0 ∧ readPGA (adjustGain s MUX c r).2.1 MUX = 0) := by
  rw [adjustGain_auto _ _ _ _ hauto]
  simp only []
  refine ⟨adjustPGA_flag _ _ _ _, ?_, ?_⟩
  · intro h
    cases hf : (adjustPGA s._setPGA MUX c r).2 with
    | true => rfl
    | false =>
      have := (adjustPGA_flag _ _ _ _).mp hf
      omega
  · intro hf
    have h := (adjustPGA_flag _ _ _ _).mp hf
    rw [readPGA_storePGA _ _ _ hMUX, adjustPGA_overflow _ _ _ _ h]
    exact ⟨rfl, rfl⟩

/-- C7 (witness): channel 0 of `demoDriver`, echoed code 0, raw sample 2045. -/
theorem C7_overflow_iff_witness :
    ((0 : Nat) ≤ 7 ∧ demoDriver._autoGainAdjust &&& (1 <<< 0) ≠ 0) ∧
    ((adjustGain demoDriver 0 0 2045).2.2 = false ↔ 2045 ≤ |(2045 : Int)|) ∧
    (|(2045 : Int)| ≤ 2044 → (adjustGain demoDriver 0 0 2045).2.2 = true) ∧
    ((adjustGain demoDriver 0 0 2045).2.2 = false →
      (adjustGain demoDriver 0 0 2045).1 = 0 ∧
        readPGA (adjustGain demoDriver 0 0 2045).2.1 0 = 0) :=
  ⟨by decide, C7_overflow_iff demoDriver 0 0 2045 (by decide) (by decide)⟩

/-- C8: on an auto-gain channel with ceiling nibble `L ≤ 5`, for every echoed code
`c ≤ 5` and every raw sample with `|raw| < 1024`, the adjustment stores
`min L (c + k)`, where `k ≤ 5 - c` is the largest number such that
`|raw| < threshold c i` for every `i < k`; the loop leaves `PGA = c + k ≤ 5` and
the divisor `j` doubled `k` times, still below 256, and overflow is not flagged. -/
theorem C8_increase_search (s : Driver) (MUX c L : Nat) (r : Int)
    (hMUX : MUX ≤ 7) (hauto : s._autoGainAdjust &&& (1 <<< MUX) ≠ 0)
    (hL : (s._setPGA >>> (4 * MUX)) &&& 0xF = L) (hL5 : L ≤ 5) (hc : c ≤ 5)
    (hr : |r| < 1024) :
    ∃ k, k ≤ 5 - c ∧ c + k ≤ 5 ∧
      (∀ i, i < k → |r| < (threshold c i : Int)) ∧
      (∀ k', k' ≤ 5 - c → (∀ i, i < k' → |r| < (threshold c i : Int)) → k' ≤ k) ∧
      gainLoop (cAbs r) 5 c c (if c = 0 then 6 else 8) =
        (c + k, (if c = 0 then 6 else 8) * 2 ^ k) ∧
      (if c = 0 then 6 else 8) * 2 ^ k < 256 ∧
      (adjustGain s MUX c r).1 = min L (c + k) ∧
      readPGA (adjustGain s MUX c r).2.1 MUX = min L (c + k) ∧
      (adjustGain s MUX c r).2.2 = true := by
  obtain ⟨k, hk, hrun, hstop, hloop, hj⟩ := gainLoop_search c |r| hc
  have hval : (adjustPGA s._setPGA MUX c r) = (min L (c + k), true) := by
    rw [adjustPGA_increase _ _ _ _ hr, ceiling_read _ _ _ hL hL5, hloop]
    simp only []
    by_cases h : c + k > L
    · rw [if_pos h, Nat.min_eq_left (by omega)]
    · rw [if_neg h, Nat.min_eq_right (by omega)]
  refine ⟨k, hk, by omega, hrun, search_maximal c k |r| hstop, ?_, hj, ?_, ?_, ?_⟩
  · rw [cAbs_eq_abs]; exact hloop
  · rw [adjustGain_auto _ _ _ _ hauto, hval]
  · rw [adjustGain_auto _ _ _ _ hauto, hval]
    simp only []
    rw [readPGA_storePGA _ _ _ hMUX]
    have : min L (c + k) ≤ 5 := le_trans (Nat.min_le_left _ _) hL5
    omega
  · rw [adjustGain_auto _ _ _ _ hauto, hval]

/-- C8 (witness): the scenario of the specification, channel 0 with ceiling 5,
code 0 and raw sample 100: the run of satisfied thresholds 1024, 512, 256, 128 has
length 4 (100 is not below 64) and the stored code is 4. -/
theorem C8_increase_search_witness :
    ((0 : Nat) ≤ 7 ∧ ({ demoDriver with _setPGA := 5 } : Driver)._autoGainAdjust &&& (1 <<< 0) ≠ 0 ∧
      (({ demoDriver with _setPGA := 5 } : Driver)._setPGA >>> (4 * 0)) &&& 0xF = 5 ∧
      |(100 : Int)| < 1024) ∧
    (∃ k, k ≤ 5 - 0 ∧ 0 + k ≤ 5 ∧
      (∀ i, i < k → |(100 : Int)| < (threshold 0 i : Int)) ∧
      (∀ k', k' ≤ 5 - 0 → (∀ i, i < k' → |(100 : Int)| < (threshold 0 i : Int)) → k' ≤ k) ∧
      gainLoop (cAbs 100) 5 0 0 (if 0 = 0 then 6 else 8) =
        (0 + k, (if 0 = 0 then 6 else 8) * 2 ^ k) ∧
      (if 0 = 0 then 6 else 8) * 2 ^ k < 256 ∧
      (adjustGain { demoDriver with _setPGA := 5 } 0 0 100).1 = min 5 (0 + k) ∧
      readPGA (adjustGain { demoDriver with _setPGA := 5 } 0 0 100).2.1 0 = min 5 (0 + k) ∧
      (adjustGain { demoDriver with _setPGA := 5 } 0 0 100).2.2 = true) ∧
    readPGA (adjustGain { demoDriver with _setPGA := 5 } 0 0 100).2.1 0 = 4 ∧
    gainLoop (cAbs 100) 5 0 0 6 = (4, 96) :=
  ⟨by decide,
    C8_increase_search { demoDriver with _setPGA := 5 } 0 0 5 100 (by decide) (by decide)
      (by decide) (by decide) (by decide) (by decide),
    by decide, by decide⟩

/-- C9: on an auto-gain channel, for every echoed code `c ≤ 7` and every raw sample
with `1024 ≤ |raw| ≤ 1945`, the adjustment leaves `PGA = c`, flags no overflow and
stores a code that reads back as `c`; applying the code map any number of times
to such a sample returns `c`. -/
theorem C9_hold_band (s : Driver) (MUX c : Nat) (r : Int)
    (hMUX : MUX ≤ 7) (hauto : s._autoGainAdjust &&& (1 <<< MUX) ≠ 0) (hc : c ≤ 7)
    (hlo : 1024 ≤ |r|) (hhi : |r| ≤ 1945) :
    (adjustGain s MUX c r).1 = c ∧ (adjustGain s MUX c r).2.2 = true ∧
    readPGA (adjustGain s MUX c r).2.1 MUX = c ∧
    ∀ n : Nat, (fun p => (adjustGain s MUX p r).1)^[n] c = c := by
  have hstep : ∀ p, (adjustGain s MUX p r).1 = p := by
    intro p
    rw [adjustGain_auto _ _ _ _ hauto, adjustPGA_hold _ _ _ _ hlo hhi]
  refine ⟨hstep c, ?_, ?_, ?_⟩
  · rw [adjustGain_auto _ _ _ _ hauto, adjustPGA_hold _ _ _ _ hlo hhi]
  · rw [adjustGain_auto _ _ _ _ hauto, adjustPGA_hold _ _ _ _ hlo hhi]
    simp only []
    rw [readPGA_storePGA _ _ _ hMUX]
    omega
  · intro n
    induction n with
    | zero => rfl
    | succ n ih => rw [Function.iterate_succ_apply, hstep c, ih]

/-- C9 (witness): channel 0 of `demoDriver`, echoed code 3, raw sample -1500. -/
theorem C9_hold_band_witness :
    (demoDriver._autoGainAdjust &&& (1 <<< 0) ≠ 0 ∧ (1024 : Int) ≤ |(-1500 : Int)| ∧
      |(-1500 : Int)| ≤ 1945) ∧
    (adjustGain demoDriver 0 3 (-1500)).1 = 3 ∧ (adjustGain demoDriver 0 3 (-1500)).2.2 = true ∧
    readPGA (adjustGain demoDriver 0 3 (-1500)).2.1 0 = 3 ∧
    ∀ n : Nat, (fun p => (adjustGain demoDriver 0 p (-1500)).1)^[n] 3 = 3 :=
  ⟨by decide,
    C9_hold_band demoDriver 0 3 (-1500) (by decide) (by decide) (by decide) (by decide)
      (by decide)⟩

/-! ## The channel scan -/

/-- The second loop of the scan, started with `8 - fuel` iterations done: either it
stops at the first selected position after `MUX`, or none of the remaining
positions is selected and `i` reaches 8. -/
theorem scanInput_spec (mask : Nat) :
    ∀ fuel i MUX, i + fuel = 8 →
      (∃ k, k < fuel ∧ enabled mask ((MUX + 1 + k) % 8) ∧
        (∀ k', k' < k → ¬ enabled mask ((MUX + 1 + k') % 8)) ∧
        scanInput mask fuel i MUX = (i + k, (MUX + 1 + k) % 8)) ∨
      ((∀ k, k < fuel → ¬ enabled mask ((MUX + 1 + k) % 8)) ∧
        (scanInput mask fuel i MUX).1 = 8) := by
  intro fuel
  induction fuel with
  | zero =>
    intro i MUX h
    right
    exact ⟨fun k hk => absurd hk (Nat.not_lt_zero k), by simp [scanInput]; omega⟩
  | succ fuel ih =>
    intro i MUX h
    have hi : i < 8 := by omega
    by_cases he : enabled mask ((MUX + 1) % 8)
    · left
      refine ⟨0, Nat.succ_pos fuel, he, fun k' hk' => absurd hk' (Nat.not_lt_zero k'), ?_⟩
      have he' : mask &&& (1 <<< ((MUX + 1) % 8)) ≠ 0 := he
      simp only [scanInput, if_pos hi, if_pos he']
      rfl
    · have he' : ¬ mask &&& (1 <<< ((MUX + 1) % 8)) ≠ 0 := he
      have hstep : scanInput mask (fuel + 1) i MUX =
          scanInput mask fuel (i + 1) ((MUX + 1) % 8) := by
        simp only [scanInput, if_pos hi, if_neg he']
      have hmod : ∀ k, ((MUX + 1) % 8 + 1 + k) % 8 = (MUX + 1 + (k + 1)) % 8 := by
        intro k; omega
      rcases ih (i + 1) ((MUX + 1) % 8) (by omega) with ⟨k, hk, hen, hleast, hval⟩ | ⟨hnone, hval⟩
      · left
        refine ⟨k + 1, by omega, ?_, ?_, ?_⟩
        · rw [← hmod]; exact hen
        · intro k' hk'
          cases k' with
          | zero => exact he
          | succ k' => rw [← hmod]; exact hleast k' (by omega)
        · rw [hstep, hval, hmod]
          congr 1
          omega
      · right
        refine ⟨?_, by rw [hstep]; exact hval⟩
        intro k hk
        cases k with
        | zero => exact he
        | succ k => rw [← hmod]; exact hnone k (by omega)

/-- Increasing the fuel of the second scan loop beyond its trip bound does not
change its value. -/
theorem scanInput_fuel (mask n : Nat) :
    ∀ fuel i MUX, 8 - i ≤ fuel → scanInput mask (fuel + n) i MUX = scanInput mask fuel i MUX := by
  intro fuel
  induction fuel with
  | zero =>
    intro i MUX h
    have h8 : ¬ i < 8 := by omega
    cases n with
    | zero => rfl
    | succ n => simp [scanInput, h8]
  | succ fuel ih =>
    intro i MUX h
    rw [Nat.add_right_comm]
    simp only [scanInput]
    rw [ih (i + 1) _ (by omega)]

/-- Increasing the fuel of the first scan loop beyond its trip bound does not
change its value. -/
theorem scanAvailable_fuel (available n : Nat) :
    ∀ fuel i, 8 - i ≤ fuel →
      scanAvailable available (fuel + n) i = scanAvailable available fuel i := by
  intro fuel
  induction fuel with
  | zero =>
    intro i h
    have h8 : ¬ i < 8 := by omega
    cases n with
    | zero => rfl
    | succ n => simp [scanAvailable, h8]
  | succ fuel ih =>
    intro i h
    rw [Nat.add_right_comm]
    simp only [scanAvailable]
    rw [ih (i + 1) (by omega)]

/-- The first loop finds the bit that `poll()` set for the last channel. -/
theorem scanAvailable_bit (m : Nat) (hm : m ≤ 7) : scanAvailable (byte (1 <<< m)) 8 0 = m := by
  interval_cases m <;> decide

/-- The scan starts at position `scanStart last`. -/
theorem scanNext_start (mask : Nat) (last : Option Nat) (hlast : ∀ m, last = some m → m ≤ 7) :
    ∃ MUX, scanNext mask (availableOf last) = scanInput mask 8 0 MUX ∧
      ∀ k, (MUX + 1 + k) % 8 = (scanStart last + k) % 8 := by
  cases last with
  | none => exact ⟨0xFF, rfl, fun k => by simp only [scanStart]; omega⟩
  | some m =>
    have hm := hlast m rfl
    refine ⟨m, ?_, fun k => rfl⟩
    unfold scanNext availableOf
    rw [scanAvailable_bit m hm]
    have : ¬ m > 7 := by omega
    simp only [if_neg this]

set_option maxRecDepth 100000 in
theorem mask_has_bit : ∀ mask, mask < 256 → mask ≠ 0 → ∃ c, c < 8 ∧ enabled mask c := by
  decide

theorem single_bit : ∀ m, m < 8 → ∀ c, c < 8 → enabled (1 <<< m) c → c = m := by
  decide

theorem enabled_zero (c : Nat) : ¬ enabled 0 c := by
  unfold enabled
  simp

/-- With a non-empty mask the scan stops at the first selected position counted
cyclically from `scanStart last`, after `k ≤ 7` unsuccessful positions. -/
theorem scanNext_spec (mask : Nat) (last : Option Nat) (hmask : mask < 256) (hne : mask ≠ 0)
    (hlast : ∀ m, last = some m → m ≤ 7) :
    ∃ k, k ≤ 7 ∧ enabled mask ((scanStart last + k) % 8) ∧
      (∀ k', k' < k → ¬ enabled mask ((scanStart last + k') % 8)) ∧
      scanNext mask (availableOf last) = (k, (scanStart last + k) % 8) := by
  obtain ⟨MUX, hs, hmod⟩ := scanNext_start mask last hlast
  rcases scanInput_spec mask 8 0 MUX rfl with ⟨k, hk, hen, hleast, hval⟩ | ⟨hnone, _⟩
  · refine ⟨k, by omega, ?_, ?_, ?_⟩
    · rw [← hmod]; exact hen
    · intro k' hk'; rw [← hmod]; exact hleast k' hk'
    · rw [hs, hval, hmod, Nat.zero_add]
  · exfalso
    obtain ⟨c, hc, hen⟩ := mask_has_bit mask hmask hne
    apply hnone ((c + 8 - (MUX + 1) % 8) % 8) (by omega)
    have : (MUX + 1 + (c + 8 - (MUX + 1) % 8) % 8) % 8 = c := by omega
    rw [this]; exact hen

/-- With the empty mask the scan runs through all 8 positions and ends with `i = 8`. -/
theorem scanNext_empty (last : Option Nat) (hlast : ∀ m, last = some m → m ≤ 7) :
    (scanNext 0 (availableOf last)).1 = 8 := by
  obtain ⟨MUX, hs, _⟩ := scanNext_start 0 last hlast
  rcases scanInput_spec 0 8 0 MUX rfl with ⟨k, _, hen, _, _⟩ | ⟨_, hval⟩
  · exact absurd hen (enabled_zero _)
  · rw [hs]; exact hval

/-- C5: for every channel mask (a byte) and every last channel (none, or an index
0..7), the scan of `startConversion()` ends with `i > 7`, and `startConversion()`
returns the no-channel error 252 (`-4`), exactly when the mask is empty; otherwise
the chosen channel is `(s + k) % 8` with `s = scanStart last` and `k ≤ 7` the least
offset whose position is selected, it is selected, and it is `last` itself when
`last` is the only selected channel. -/
theorem C5_channel_scan (mask : Nat) (last : Option Nat) (hmask : mask < 256)
    (hlast : ∀ m, last = some m → m ≤ 7) :
    ((scanNext mask (availableOf last)).1 > 7 ↔ mask = 0) ∧
    (∀ (s : Driver) (endTx : Nat), s._inputSelect = mask → s._available = availableOf last →
      ((startConversion s endTx).1 = 252 ↔ mask = 0)) ∧
    (mask ≠ 0 → ∃ k, k ≤ 7 ∧
      (scanNext mask (availableOf last)).2 = (scanStart last + k) % 8 ∧
      enabled mask ((scanStart last + k) % 8) ∧
      (∀ k', k' < k → ¬ enabled mask ((scanStart last + k') % 8))) ∧
    (mask ≠ 0 → enabled mask (scanNext mask (availableOf last)).2) ∧
    (∀ m, last = some m → mask = 1 <<< m → (scanNext mask (availableOf last)).2 = m) := by
  have hiff : (scanNext mask (availableOf last)).1 > 7 ↔ mask = 0 := by
    constructor
    · intro h
      by_contra hne
      obtain ⟨k, hk, _, _, hval⟩ := scanNext_spec mask last hmask hne hlast
      rw [hval] at h
      simp only [] at h
      omega
    · intro h
      rw [h, scanNext_empty last hlast]
      decide
  refine ⟨hiff, ?_, ?_, ?_, ?_⟩
  · intro s endTx hs ha
    unfold startConversion
    simp only [hs, ha]
    by_cases h7 : (scanNext mask (availableOf last)).1 > 7
    · rw [if_pos h7]
      exact ⟨fun _ => hiff.mp h7, fun _ => rfl⟩
    · rw [if_neg h7]
      constructor
      · intro h
        exfalso
        split at h <;> simp at h
      · intro h
        exact absurd (hiff.mpr h) h7
  · intro hne
    obtain ⟨k, hk, hen, hleast, hval⟩ := scanNext_spec mask last hmask hne hlast
    exact ⟨k, hk, by rw [hval], hen, hleast⟩
  · intro hne
    obtain ⟨k, _, hen, _, hval⟩ := scanNext_spec mask last hmask hne hlast
    rw [hval]; exact hen
  · intro m hm hone
    have hm7 := hlast m hm
    have hne : mask ≠ 0 := by
      rw [hone]
      interval_cases m <;> decide
    obtain ⟨k, _, hen, _, hval⟩ := scanNext_spec mask last hmask hne hlast
    rw [hval]
    rw [hone] at hen
    exact single_bit m (by omega) _ (Nat.mod_lt _ (by decide)) hen

/-- C5 (witness): mask `0b10010` (inputs 1 and 4) and last channel 1: the scan
starts at 2 and stops after two unsuccessful positions at channel 4. -/
theorem C5_channel_scan_witness :
    ((18 : Nat) < 256 ∧ ∀ m, some 1 = some m → m ≤ 7) ∧
    (((scanNext 18 (availableOf (some 1))).1 > 7 ↔ (18 : Nat) = 0) ∧
    (∀ (s : Driver) (endTx : Nat), s._inputSelect = 18 → s._available = availableOf (some 1) →
      ((startConversion s endTx).1 = 252 ↔ (18 : Nat) = 0)) ∧
    ((18 : Nat) ≠ 0 → ∃ k, k ≤ 7 ∧
      (scanNext 18 (availableOf (some 1))).2 = (scanStart (some 1) + k) % 8 ∧
      enabled 18 ((scanStart (some 1) + k) % 8) ∧
      (∀ k', k' < k → ¬ enabled 18 ((scanStart (some 1) + k') % 8))) ∧
    ((18 : Nat) ≠ 0 → enabled 18 (scanNext 18 (availableOf (some 1))).2) ∧
    (∀ m, some 1 = some m → (18 : Nat) = 1 <<< m → (scanNext 18 (availableOf (some 1))).2 = m)) ∧
    scanNext 18 (availableOf (some 1)) = (2, 4) :=
  ⟨⟨by decide, fun m h => by cases h; decide⟩,
    C5_channel_scan 18 (some 1) (by decide) (fun m h => by cases h; decide),
    by decide⟩

set_option maxRecDepth 1000000 in
set_option maxHeartbeats 4000000 in
theorem nextChannel_facts :
    ∀ mask, mask < 256 → ∀ x, x < 8 → enabled mask x →
      enabled mask (nextChannel mask x) ∧ nextChannel mask x < 8 ∧
      cyclicSucc mask x (nextChannel mask x) := by
  decide


set_option maxRecDepth 1000000 in
set_option maxHeartbeats 4000000 in
theorem orbit_facts :
    ∀ mask, mask < 256 → ∀ x, x < 8 → enabled mask x →
      enumerates mask (orbit mask x) ∧ (nextChannel mask)^[enabledCount mask] x = x := by
  decide

theorem channelSeq_succ (mask : Nat) (last : Option Nat) (t : Nat) :
    channelSeq mask last (t + 1) = nextChannel mask (channelSeq mask last t) := by
  unfold channelSeq
  rw [Function.iterate_succ_apply']

theorem channelSeq_add (mask : Nat) (last : Option Nat) (t j : Nat) :
    channelSeq mask last (t + j) = (nextChannel mask)^[j] (channelSeq mask last t) := by
  unfold channelSeq
  rw [Nat.add_comm, Function.iterate_add_apply]

/-- Every channel of the sequence is a selected input. -/
theorem channelSeq_enabled (mask : Nat) (last : Option Nat) (hmask : mask < 256) (hne : mask ≠ 0)
    (hlast : ∀ m, last = some m → m ≤ 7) (t : Nat) :
    enabled mask (channelSeq mask last t) ∧ channelSeq mask last t < 8 := by
  induction t with
  | zero =>
    obtain ⟨k, _, hen, _, hval⟩ := scanNext_spec mask last hmask hne hlast
    have h0 : channelSeq mask last 0 = (scanStart last + k) % 8 := by
      unfold channelSeq
      rw [Function.iterate_zero_apply, hval]
    rw [h0]
    exact ⟨hen, Nat.mod_lt _ (by decide)⟩
  | succ t ih =>
    rw [channelSeq_succ]
    have h := nextChannel_facts mask hmask _ ih.2 ih.1
    exact ⟨h.1, h.2.1⟩

/-- C6: for every non-empty channel mask (a byte) and every starting point, the
sequence of channels chosen by the fed-back scheduler never leaves the selected
inputs, each element is the next selected index in ascending cyclic order after
its predecessor, any `enabledCount mask` consecutive elements are pairwise distinct
and are exactly the selected inputs, and the sequence has period
`enabledCount mask`. -/
theorem C6_round_robin (mask : Nat) (last : Option Nat) (hmask : mask < 256) (hne : mask ≠ 0)
    (hlast : ∀ m, last = some m → m ≤ 7) (t : Nat) :
    enabled mask (channelSeq mask last t) ∧ channelSeq mask last t ≤ 7 ∧
    cyclicSucc mask (channelSeq mask last t) (channelSeq mask last (t + 1)) ∧
    enumerates mask
      ((List.range (enabledCount mask)).map (fun j => channelSeq mask last (t + j))) ∧
    channelSeq mask last (t + enabledCount mask) = channelSeq mask last t := by
  have hx := channelSeq_enabled mask last hmask hne hlast t
  have hstep := nextChannel_facts mask hmask _ hx.2 hx.1
  have horb := orbit_facts mask hmask _ hx.2 hx.1
  have hlist : (List.range (enabledCount mask)).map (fun j => channelSeq mask last (t + j)) =
      orbit mask (channelSeq mask last t) := by
    unfold orbit
    apply List.map_congr_left
    intro j _
    exact channelSeq_add mask last t j
  refine ⟨hx.1, by omega, ?_, ?_, ?_⟩
  · rw [channelSeq_succ]; exact hstep.2.2
  · rw [hlist]; exact horb.1
  · rw [channelSeq_add]; exact horb.2

/-- C6 (witness): mask `0b10010` (inputs 1 and 4), no last channel, third element
of the sequence; the sequence is 1, 4, 1, 4, ... -/
theorem C6_round_robin_witness :
    ((18 : Nat) < 256 ∧ (18 : Nat) ≠ 0 ∧ ∀ m, (none : Option Nat) = some m → m ≤ 7) ∧
    (enabled 18 (channelSeq 18 none 2) ∧ channelSeq 18 none 2 ≤ 7 ∧
    cyclicSucc 18 (channelSeq 18 none 2) (channelSeq 18 none (2 + 1)) ∧
    enumerates 18
      ((List.range (enabledCount 18)).map (fun j => channelSeq 18 none (2 + j))) ∧
    channelSeq 18 none (2 + enabledCount 18) = channelSeq 18 none 2) ∧
    (List.range 5).map (channelSeq 18 none) = [1, 4, 1, 4, 1] ∧ enabledCount 18 = 2 :=
  ⟨⟨by decide, by decide, fun m h => by cases h⟩,
    C6_round_robin 18 none (by decide) (by decide) (fun m h => by cases h) 2,
    by decide, by decide⟩

/-! ## The `poll()` state machine -/

theorem scanAvailable_shift (m : Nat) (hm : m ≤ 7) :
    scanAvailable (1 <<< m) 8 0 = m ∧ 1 <<< m ≠ 0 ∧ byte (1 <<< m) = 1 <<< m := by
  interval_cases m <;> decide

/-- With a pending result `poll()` returns at once. -/
theorem poll_pending (s : Driver) (w : WireReplies) (m : Nat) (hsel : s._inputSelect ≠ 0)
    (hm : m ≤ 7) (hav : s._available = 1 <<< m) : poll s w = (m + 1, s, []) := by
  obtain ⟨h1, h2, _⟩ := scanAvailable_shift m hm
  unfold poll
  rw [if_neg hsel, hav, if_pos h2, h1]
  have : byte (m + 1) = m + 1 := by unfold byte; omega
  rw [this]

/-- C10: in a state with a non-empty channel mask and a pending unconsumed result
for channel `m ≤ 7` (`_available = 1 << m`), `poll()` issues no bus transaction,
leaves the state unchanged and returns `m + 1`, a number in 1..8; any number of
consecutive calls, whatever the bus would answer, all return `m + 1` and leave the
state unchanged without any bus transaction. -/
theorem C10_pending_result (s : Driver) (w : WireReplies) (m : Nat)
    (hsel : s._inputSelect ≠ 0) (hm : m ≤ 7) (hav : s._available = 1 <<< m) :
    poll s w = (m + 1, s, []) ∧ 1 ≤ m + 1 ∧ m + 1 ≤ 8 ∧
    ∀ ws : List WireReplies, pollMany s ws = (List.replicate ws.length (m + 1), s, []) := by
  refine ⟨poll_pending s w m hsel hm hav, by omega, by omega, ?_⟩
  intro ws
  induction ws with
  | nil => rfl
  | cons w' ws ih =>
    simp only [pollMany]
    rw [poll_pending s w' m hsel hm hav]
    simp only []
    rw [ih]
    rfl

/-- C10 (witness): `demoDriver` with a pending result for channel 3. -/
theorem C10_pending_result_witness :
    (({ demoDriver with _available := 8 } : Driver)._inputSelect ≠ 0 ∧ (3 : Nat) ≤ 7 ∧
      ({ demoDriver with _available := 8 } : Driver)._available = 1 <<< 3) ∧
    (poll { demoDriver with _available := 8 } demoReplies =
        (3 + 1, { demoDriver with _available := 8 }, []) ∧ 1 ≤ 3 + 1 ∧ 3 + 1 ≤ 8 ∧
      ∀ ws : List WireReplies, pollMany { demoDriver with _available := 8 } ws =
        (List.replicate ws.length (3 + 1), { demoDriver with _available := 8 }, [])) :=
  ⟨by decide,
    C10_pending_result { demoDriver with _available := 8 } demoReplies 3 (by decide) (by decide)
      (by decide)⟩

/-- The channel decoded from the config byte is one of 0..7. -/
theorem decode_MUX_le (configMSb : Nat) : (configMSb &&& 0x70) >>> 4 ≤ 7 := by
  have h : configMSb &&& 0x70 ≤ 0x70 := Nat.and_le_right
  rw [Nat.shiftRight_eq_div_pow]
  norm_num at h ⊢
  omega

/-- When both registers have been read, `poll()` continues with `pollFinish`. -/
theorem poll_completed (s : Driver) (w : WireReplies) (hsel : s._inputSelect ≠ 0)
    (hav : s._available = 0) (h1 : w.statusPtrEnd = 0) (h2 : w.statusAvail = 1)
    (h3 : byte w.statusByte &&& 0x80 ≠ 0) (h4 : w.resultPtrEnd = 0) (h5 : w.resultAvail = 2) :
    poll s w =
      ((pollFinish s (byte w.statusByte) (composeResult w.resultHi w.resultLo) w.startEnd).1,
        (pollFinish s (byte w.statusByte) (composeResult w.resultHi w.resultLo) w.startEnd).2.1,
        [BusOp.write s._I2Caddr [configReg], BusOp.requestFrom s._I2Caddr 1,
          BusOp.write s._I2Caddr [conversReg], BusOp.requestFrom s._I2Caddr 2] ++
        (pollFinish s (byte w.statusByte) (composeResult w.resultHi w.resultLo) w.startEnd).2.2) := by
  unfold poll
  simp only [if_neg hsel, hav, h1, h2, h4, h5, ne_eq, not_true_eq_false, if_false, if_neg h3]

/-- A failed start-conversion write makes `startConversion()` return 254 (`-2`) when
an input is selected and the last channel is recorded in `_available`. -/
theorem startConversion_fail (s : Driver) (endTx m : Nat) (hsel : s._inputSelect ≠ 0)
    (hbyte : s._inputSelect < 256) (hm : m ≤ 7) (hav : s._available = byte (1 <<< m))
    (hend : endTx ≠ 0) : (startConversion s endTx).1 = 254 := by
  obtain ⟨k, hk, _, _, hval⟩ :=
    scanNext_spec s._inputSelect (some m) hbyte hsel (fun m' h => by cases h; exact hm)
  have hav' : s._available = availableOf (some m) := hav
  unfold startConversion
  simp only [hav', hval]
  have : ¬ k > 7 := by omega
  rw [if_neg this, if_pos hend]

/-- C3 (as amended): with a selected input and no pending result, a failure of one
of the four transactions before the sample is processed (status pointer write,
1-byte status read, result pointer write, 2-byte result read) makes `poll()`
return a communication-error code (254 for `-2`, 253 for `-3`) and leaves every
member of the driver state as it was; a failed start-conversion write after a
completed sample makes `poll()` return the communication-error code 254. -/
theorem C3_comm_error_paths (s : Driver) (w : WireReplies) (hsel : s._inputSelect ≠ 0)
    (hbyte : s._inputSelect < 256) (hav : s._available = 0) :
    (w.statusPtrEnd ≠ 0 → (poll s w).1 = 254 ∧ (poll s w).2.1 = s) ∧
    (w.statusPtrEnd = 0 → w.statusAvail ≠ 1 → (poll s w).1 = 253 ∧ (poll s w).2.1 = s) ∧
    (w.statusPtrEnd = 0 → w.statusAvail = 1 → byte w.statusByte &&& 0x80 ≠ 0 →
      w.resultPtrEnd ≠ 0 → (poll s w).1 = 254 ∧ (poll s w).2.1 = s) ∧
    (w.statusPtrEnd = 0 → w.statusAvail = 1 → byte w.statusByte &&& 0x80 ≠ 0 →
      w.resultPtrEnd = 0 → w.resultAvail ≠ 2 → (poll s w).1 = 253 ∧ (poll s w).2.1 = s) ∧
    (w.statusPtrEnd = 0 → w.statusAvail = 1 → byte w.statusByte &&& 0x80 ≠ 0 →
      w.resultPtrEnd = 0 → w.resultAvail = 2 → w.startEnd ≠ 0 → (poll s w).1 = 254) := by
  refine ⟨?_, ?_, ?_, ?_, ?_⟩
  · intro h1
    unfold poll
    simp only [if_neg hsel, hav, ne_eq, not_true_eq_false, if_false, if_pos h1, and_self]
  · intro h1 h2
    unfold poll
    simp only [if_neg hsel, hav, h1, ne_eq, not_true_eq_false, if_false, h2, not_false_eq_true,
      if_true, and_self]
  · intro h1 h2 h3 h4
    unfold poll
    simp only [if_neg hsel, hav, h1, h2, ne_eq, not_true_eq_false, if_false, if_neg h3, h4,
      not_false_eq_true, if_true, and_self]
  · intro h1 h2 h3 h4 h5
    unfold poll
    simp only [if_neg hsel, hav, h1, h2, h4, ne_eq, not_true_eq_false, if_false, if_neg h3, h5,
      not_false_eq_true, if_true, and_self]
  · intro h1 h2 h3 h4 h5 h6
    rw [poll_completed s w hsel hav h1 h2 h3 h4 h5]
    simp only []
    have hc := startConversion_fail
      { s with
        PGA := (adjustGain s ((byte w.statusByte &&& 0x70) >>> 4)
          ((byte w.statusByte &&& 0x0E) >>> 1) (composeResult w.resultHi w.resultLo)).1
        _gain := (gainTable ((byte w.statusByte &&& 0x0E) >>> 1)).1
        _precision := (gainTable ((byte w.statusByte &&& 0x0E) >>> 1)).2
        _currentPGA := (adjustGain s ((byte w.statusByte &&& 0x70) >>> 4)
          ((byte w.statusByte &&& 0x0E) >>> 1) (composeResult w.resultHi w.resultLo)).2.1
        _voltage := ((composeResult w.resultHi w.resultLo : Int) : ℚ) *
          (gainTable ((byte w.statusByte &&& 0x0E) >>> 1)).1
        _available := byte (1 <<< ((byte w.statusByte &&& 0x70) >>> 4)) }
      w.startEnd ((byte w.statusByte &&& 0x70) >>> 4) hsel hbyte (decode_MUX_le _) rfl h6
    unfold pollFinish
    simp only []
    rw [hc]
    rfl

/-- C3 (witness): `demoDriver` with a failed status pointer write and with a failed
start-conversion write. -/
theorem C3_comm_error_paths_witness :
    (demoDriver._inputSelect ≠ 0 ∧ demoDriver._inputSelect < 256 ∧ demoDriver._available = 0) ∧
    ((poll demoDriver demoRepliesStatusFail).1 = 254 ∧
      (poll demoDriver demoRepliesStatusFail).2.1 = demoDriver) ∧
    (poll demoDriver demoRepliesStartFail).1 = 254 :=
  ⟨by decide,
    (C3_comm_error_paths demoDriver demoRepliesStatusFail (by decide) (by decide) rfl).1
      (by decide),
    (C3_comm_error_paths demoDriver demoRepliesStartFail (by decide) (by decide) rfl).2.2.2.2
      rfl rfl (by decide) rfl rfl (by decide)⟩

/-- C3 (counterexample): the start-conversion write fails after the sample 1500
of input 0 has been processed; `poll()` returns 254, but the state is not the one
before the call: the availability bit, the cached gain, precision and voltage
have been written. -/
theorem C3_state_changed_on_start_failure :
    demoRepliesStartFail.startEnd ≠ 0 ∧
    (poll demoDriver demoRepliesStartFail).1 = 254 ∧
    (poll demoDriver demoRepliesStartFail).2.1 ≠ demoDriver ∧
    demoDriver._available = 0 ∧ (poll demoDriver demoRepliesStartFail).2.1._available = 1 ∧
    demoDriver._precision = 0 ∧ (poll demoDriver demoRepliesStartFail).2.1._precision = 3 ∧
    demoDriver._voltage = 0 ∧ (poll demoDriver demoRepliesStartFail).2.1._voltage = 9 / 2 := by
  have hv : (poll demoDriver demoRepliesStartFail).2.1._voltage = ((1500 : Int) : ℚ) * (3 / 1000) :=
    rfl
  refine ⟨by decide, by decide, ?_, by decide, by decide, by decide, by decide, rfl, ?_⟩
  · intro h
    exact absurd (congrArg Driver._available h) (by decide)
  · rw [hv]; norm_num

/-- C4 (evaluation at the failing input): input 0 has auto gain, the fetched sample
is 2047 and is flagged as overflow, and the start-conversion write that follows is
not acknowledged.  `poll()` returns 254 with the availability bit of input 0 still
set, so the next `poll()` reports input 0 ready (returns 1) without any bus
transaction and `getVoltage()` hands out the overflowed value 6.141.  When the
write succeeds the same sample leaves the bit clear and `poll()` returns 0. -/
theorem C4_overflow_exposed_on_start_failure :
    demoDriver._autoGainAdjust &&& (1 <<< 0) ≠ 0 ∧
    composeResult overflowRepliesStartFail.resultHi overflowRepliesStartFail.resultLo = 2047 ∧
    (adjustGain demoDriver 0 0 2047).2.2 = false ∧
    (poll demoDriver overflowRepliesStartFail).1 = 254 ∧
    (poll demoDriver overflowRepliesStartFail).2.1._available = 1 ∧
    (poll (poll demoDriver overflowRepliesStartFail).2.1 demoReplies).1 = 1 ∧
    (poll (poll demoDriver overflowRepliesStartFail).2.1 demoReplies).2.2 = [] ∧
    (getVoltage (poll demoDriver overflowRepliesStartFail).2.1).1 = 6141 / 1000 ∧
    (poll demoDriver overflowReplies).1 = 0 ∧
    (poll demoDriver overflowReplies).2.1._available = 0 := by
  have hv : (getVoltage (poll demoDriver overflowRepliesStartFail).2.1).1 =
      ((2047 : Int) : ℚ) * (3 / 1000) := rfl
  refine ⟨by decide, by decide, by decide, by decide, by decide, by decide, by decide, ?_,
    by decide, by decide⟩
  rw [hv]; norm_num

/-! ## Accessors and the sample cache -/

/-- C11: `getVoltage()` returns the cached voltage, clears the ready flag, leaves
every other member (masks, ceilings, gain codes, cached voltage, gain and
precision, `PGA`, address) as it was and issues no bus transaction; a second call
returns the same value and leaves the state equal to the state after the first
call, so the channel scan that follows starts from the same position. -/
theorem C11_getVoltage_consumes (s : Driver) :
    (getVoltage s).1 = s._voltage ∧
    (getVoltage s).2.1 = { s with _available := 0 } ∧
    (getVoltage s).2.1._available = 0 ∧
    (getVoltage s).2.1._I2Caddr = s._I2Caddr ∧
    (getVoltage s).2.1._inputSelect = s._inputSelect ∧
    (getVoltage s).2.1._autoGainAdjust = s._autoGainAdjust ∧
    (getVoltage s).2.1._setPGA = s._setPGA ∧
    (getVoltage s).2.1._currentPGA = s._currentPGA ∧
    (getVoltage s).2.1._voltage = s._voltage ∧
    (getVoltage s).2.1._gain = s._gain ∧
    (getVoltage s).2.1._precision = s._precision ∧
    (getVoltage s).2.1.PGA = s.PGA ∧
    (getVoltage s).2.2 = [] ∧
    getVoltage (getVoltage s).2.1 = ((getVoltage s).1, (getVoltage s).2.1, []) ∧
    scanNext (getVoltage (getVoltage s).2.1).2.1._inputSelect
        (getVoltage (getVoltage s).2.1).2.1._available =
      scanNext (getVoltage s).2.1._inputSelect (getVoltage s).2.1._available := by
  refine ⟨rfl, rfl, rfl, rfl, rfl, rfl, rfl, rfl, rfl, rfl, rfl, rfl, rfl, rfl, rfl⟩

/-- `startConversion()` writes no member other than `PGA`. -/
theorem startConversion_frame (s : Driver) (endTx : Nat) :
    (startConversion s endTx).2.1._I2Caddr = s._I2Caddr ∧
    (startConversion s endTx).2.1._inputSelect = s._inputSelect ∧
    (startConversion s endTx).2.1._autoGainAdjust = s._autoGainAdjust ∧
    (startConversion s endTx).2.1._setPGA = s._setPGA ∧
    (startConversion s endTx).2.1._currentPGA = s._currentPGA ∧
    (startConversion s endTx).2.1._available = s._available ∧
    (startConversion s endTx).2.1._voltage = s._voltage ∧
    (startConversion s endTx).2.1._gain = s._gain ∧
    (startConversion s endTx).2.1._precision = s._precision := by
  unfold startConversion
  simp only []
  split_ifs <;> exact ⟨rfl, rfl, rfl, rfl, rfl, rfl, rfl, rfl, rfl⟩

/-- What a completed sample leaves in the cache and in the gain word, whatever the
outcome of the gain adjustment and of the start-conversion write. -/
theorem pollFinish_cache (s : Driver) (configMSb : Nat) (result : Int) (startEnd : Nat) :
    (pollFinish s configMSb result startEnd).2.1._gain =
      (gainTable ((configMSb &&& 0x0E) >>> 1)).1 ∧
    (pollFinish s configMSb result startEnd).2.1._precision =
      (gainTable ((configMSb &&& 0x0E) >>> 1)).2 ∧
    (pollFinish s configMSb result startEnd).2.1._voltage =
      (result : ℚ) * (gainTable ((configMSb &&& 0x0E) >>> 1)).1 ∧
    (pollFinish s configMSb result startEnd).2.1._currentPGA =
      (adjustGain s ((configMSb &&& 0x70) >>> 4) ((configMSb &&& 0x0E) >>> 1) result).2.1 ∧
    (pollFinish s configMSb result startEnd).2.1._setPGA = s._setPGA ∧
    (pollFinish s configMSb result startEnd).2.1._inputSelect = s._inputSelect ∧
    (pollFinish s configMSb result startEnd).2.1._autoGainAdjust = s._autoGainAdjust := by
  unfold pollFinish
  simp only []
  split_ifs <;>
    simp only [(startConversion_frame _ startEnd).2.2.2.2.2.2.2.1,
      (startConversion_frame _ startEnd).2.2.2.2.2.2.2.2,
      (startConversion_frame _ startEnd).2.2.2.2.2.2.1,
      (startConversion_frame _ startEnd).2.2.2.2.1,
      (startConversion_frame _ startEnd).2.2.2.1,
      (startConversion_frame _ startEnd).2.1,
      (startConversion_frame _ startEnd).2.2.1, and_self]

/-- The state after a `poll()` call that read both registers. -/
theorem poll_completed_state (s : Driver) (w : WireReplies) (hsel : s._inputSelect ≠ 0)
    (hav : s._available = 0) (h1 : w.statusPtrEnd = 0) (h2 : w.statusAvail = 1)
    (h3 : byte w.statusByte &&& 0x80 ≠ 0) (h4 : w.resultPtrEnd = 0) (h5 : w.resultAvail = 2) :
    (poll s w).2.1 =
      (pollFinish s (byte w.statusByte) (composeResult w.resultHi w.resultLo) w.startEnd).2.1 := by
  rw [poll_completed s w hsel hav h1 h2 h3 h4 h5]

/-- The echoed gain code is one of 0..7. -/
theorem decode_PGA_le (configMSb : Nat) : (configMSb &&& 0x0E) >>> 1 ≤ 7 := by
  have h : configMSb &&& 0x0E ≤ 0x0E := Nat.and_le_right
  rw [Nat.shiftRight_eq_div_pow]
  norm_num at h ⊢
  omega

/-- C12: after a `poll()` call that completes a sample with echoed gain code `g`
and raw value `r`, the cached scale and precision are the gain-table entry of `g`
and the cached voltage is `r` times that scale, whatever the gain adjustment of the
same call does; the table is (0.003,3), (0.002,3), (0.001,3), (0.0005,4),
(0.00025,5) for the codes 0..4 and (0.000125,6) for every code from 5 on. -/
theorem C12_cache_uses_echoed_code (s : Driver) (w : WireReplies)
    (hsel : s._inputSelect ≠ 0) (hav : s._available = 0)
    (h1 : w.statusPtrEnd = 0) (h2 : w.statusAvail = 1)
    (h3 : byte w.statusByte &&& 0x80 ≠ 0) (h4 : w.resultPtrEnd = 0) (h5 : w.resultAvail = 2) :
    (byte w.statusByte &&& 0x0E) >>> 1 ≤ 7 ∧
    getGain (poll s w).2.1 = (gainTable ((byte w.statusByte &&& 0x0E) >>> 1)).1 ∧
    getPrecision (poll s w).2.1 = (gainTable ((byte w.statusByte &&& 0x0E) >>> 1)).2 ∧
    (getVoltage (poll s w).2.1).1 =
      (composeResult w.resultHi w.resultLo : ℚ) *
        (gainTable ((byte w.statusByte &&& 0x0E) >>> 1)).1 ∧
    gainTable 0 = (0.003, 3) ∧ gainTable 1 = (0.002, 3) ∧ gainTable 2 = (0.001, 3) ∧
    gainTable 3 = (0.0005, 4) ∧ gainTable 4 = (0.00025, 5) ∧
    (∀ g, 5 ≤ g → gainTable g = (0.000125, 6)) := by
  have hc := pollFinish_cache s (byte w.statusByte) (composeResult w.resultHi w.resultLo)
    w.startEnd
  have hs := poll_completed_state s w hsel hav h1 h2 h3 h4 h5
  refine ⟨decode_PGA_le _, ?_, ?_, ?_, ?_, ?_, ?_, ?_, ?_, ?_⟩
  · unfold getGain; rw [hs]; exact hc.1
  · unfold getPrecision; rw [hs]; exact hc.2.1
  · unfold getVoltage; simp only []; rw [hs]; exact hc.2.2.1
  · simp only [gainTable]; norm_num
  · simp only [gainTable]; norm_num
  · simp only [gainTable]; norm_num
  · simp only [gainTable]; norm_num
  · simp only [gainTable]; norm_num
  · intro g hg
    match g, hg with
    | g + 5, _ => simp only [gainTable]; norm_num

/-- C12 (witness): `demoDriver` and the sample 1500 at gain code 0. -/
theorem C12_cache_uses_echoed_code_witness :
    (demoDriver._inputSelect ≠ 0 ∧ demoDriver._available = 0 ∧ demoReplies.statusPtrEnd = 0 ∧
      demoReplies.statusAvail = 1 ∧ byte demoReplies.statusByte &&& 0x80 ≠ 0 ∧
      demoReplies.resultPtrEnd = 0 ∧ demoReplies.resultAvail = 2) ∧
    getGain (poll demoDriver demoReplies).2.1 =
      (gainTable ((byte demoReplies.statusByte &&& 0x0E) >>> 1)).1 ∧
    (getVoltage (poll demoDriver demoReplies).2.1).1 =
      (composeResult demoReplies.resultHi demoReplies.resultLo : ℚ) *
        (gainTable ((byte demoReplies.statusByte &&& 0x0E) >>> 1)).1 :=
  ⟨by decide,
    (C12_cache_uses_echoed_code demoDriver demoReplies (by decide) rfl rfl rfl (by decide)
      rfl rfl).2.1,
    (C12_cache_uses_echoed_code demoDriver demoReplies (by decide) rfl rfl rfl (by decide)
      rfl rfl).2.2.2.1⟩

/-- From code 0 a sample of magnitude 100 is raised to code 4 when the ceiling
read allows it. -/
theorem adjustPGA_scenario (setPGA MUX : Nat) (r : Int) (hr : |r| = 100)
    (hceil : 4 ≤ readPGA setPGA MUX) : adjustPGA setPGA MUX 0 r = (4, true) := by
  have h7 : (0x7 : Nat) = 2 ^ 3 - 1 := by norm_num
  have hb : byte ((setPGA >>> (4 * MUX)) &&& 0x7) = readPGA setPGA MUX := by
    unfold byte readPGA
    rw [h7, Nat.and_pow_two_sub_one_eq_mod]
    omega
  rw [adjustPGA_increase _ _ _ _ (by omega), hb, if_pos rfl, hr, gainLoop_code0]
  norm_num
  intro h
  omega

/-- C13 (as amended): when `poll()` completes a sample of magnitude 100 that an
auto-gain channel `m` took at gain code 0, with a ceiling of at least 4, the code
stored for the channel becomes 4 (for the next conversion), and the sample is
reported with the scale and precision of code 0, at which it was taken: scale
0.003, precision 3, voltage `raw × 0.003`, that is 0.3 V for the raw value 100. -/
theorem C13_scenario_code0_scale (s : Driver) (w : WireReplies) (m : Nat)
    (hsel : s._inputSelect ≠ 0) (hav : s._available = 0)
    (h1 : w.statusPtrEnd = 0) (h2 : w.statusAvail = 1)
    (h3 : byte w.statusByte &&& 0x80 ≠ 0) (h4 : w.resultPtrEnd = 0) (h5 : w.resultAvail = 2)
    (hm : (byte w.statusByte &&& 0x70) >>> 4 = m)
    (hg : (byte w.statusByte &&& 0x0E) >>> 1 = 0)
    (hauto : s._autoGainAdjust &&& (1 <<< m) ≠ 0) (hceil : 4 ≤ readPGA s._setPGA m)
    (hr : |composeResult w.resultHi w.resultLo| = 100) :
    readPGA (poll s w).2.1._currentPGA m = 4 ∧
    getGain (poll s w).2.1 = 0.003 ∧
    getPrecision (poll s w).2.1 = 3 ∧
    (getVoltage (poll s w).2.1).1 = (composeResult w.resultHi w.resultLo : ℚ) * 0.003 ∧
    (composeResult w.resultHi w.resultLo = 100 → (getVoltage (poll s w).2.1).1 = 0.3) := by
  have hc := pollFinish_cache s (byte w.statusByte) (composeResult w.resultHi w.resultLo)
    w.startEnd
  have hs := poll_completed_state s w hsel hav h1 h2 h3 h4 h5
  have hm7 : m ≤ 7 := by rw [← hm]; exact decode_MUX_le _
  rw [hg, hm] at hc
  have hgain : (gainTable 0).1 = (0.003 : ℚ) := by simp only [gainTable]; norm_num
  have hv : (getVoltage (poll s w).2.1).1 =
      (composeResult w.resultHi w.resultLo : ℚ) * 0.003 := by
    unfold getVoltage; simp only []; rw [hs, hc.2.2.1, hgain]
  refine ⟨?_, ?_, ?_, hv, ?_⟩
  · rw [hs, hc.2.2.2.1, adjustGain_auto _ _ _ _ hauto, adjustPGA_scenario _ _ _ hr hceil]
    simp only []
    rw [readPGA_storePGA _ _ _ hm7]
  · unfold getGain; rw [hs, hc.1, hgain]
  · unfold getPrecision; rw [hs, hc.2.1]; rfl
  · intro h100
    rw [hv, h100]; norm_num

/-- C13 (witness): the scenario itself, input 0 with ceiling 5 at code 0 and the
raw sample 100. -/
theorem C13_scenario_code0_scale_witness :
    (scenarioDriver._inputSelect ≠ 0 ∧ scenarioDriver._available = 0 ∧
      scenarioReplies.statusPtrEnd = 0 ∧ scenarioReplies.statusAvail = 1 ∧
      byte scenarioReplies.statusByte &&& 0x80 ≠ 0 ∧ scenarioReplies.resultPtrEnd = 0 ∧
      scenarioReplies.resultAvail = 2 ∧ (byte scenarioReplies.statusByte &&& 0x70) >>> 4 = 0 ∧
      (byte scenarioReplies.statusByte &&& 0x0E) >>> 1 = 0 ∧
      scenarioDriver._autoGainAdjust &&& (1 <<< 0) ≠ 0 ∧ 4 ≤ readPGA scenarioDriver._setPGA 0 ∧
      |composeResult scenarioReplies.resultHi scenarioReplies.resultLo| = 100) ∧
    (readPGA (poll scenarioDriver scenarioReplies).2.1._currentPGA 0 = 4 ∧
    getGain (poll scenarioDriver scenarioReplies).2.1 = 0.003 ∧
    getPrecision (poll scenarioDriver scenarioReplies).2.1 = 3 ∧
    (getVoltage (poll scenarioDriver scenarioReplies).2.1).1 =
      (composeResult scenarioReplies.resultHi scenarioReplies.resultLo : ℚ) * 0.003 ∧
    (composeResult scenarioReplies.resultHi scenarioReplies.resultLo = 100 →
      (getVoltage (poll scenarioDriver scenarioReplies).2.1).1 = 0.3)) :=
  ⟨by decide,
    C13_scenario_code0_scale scenarioDriver scenarioReplies 0 (by decide) rfl rfl rfl
      (by decide) rfl rfl (by decide) (by decide) (by decide) (by decide) (by decide)⟩

/-- C13 (counterexample): in the scenario of the specification (input 0 with auto
gain and ceiling 5 at code 0, raw sample 100, every transaction successful)
`poll()` returns 1 and stores code 4, but the reported scale is 0.003, not 0.00025,
the precision 3, not 5, and the voltage 0.3, not 0.025. -/
theorem C13_scenario_not_code4_scale :
    composeResult scenarioReplies.resultHi scenarioReplies.resultLo = 100 ∧
    (poll scenarioDriver scenarioReplies).1 = 1 ∧
    readPGA (poll scenarioDriver scenarioReplies).2.1._currentPGA 0 = 4 ∧
    getGain (poll scenarioDriver scenarioReplies).2.1 ≠ 0.00025 ∧
    getPrecision (poll scenarioDriver scenarioReplies).2.1 ≠ 5 ∧
    (getVoltage (poll scenarioDriver scenarioReplies).2.1).1 ≠ 0.025 := by
  have hg : getGain (poll scenarioDriver scenarioReplies).2.1 = 3 / 1000 := rfl
  have hv : (getVoltage (poll scenarioDriver scenarioReplies).2.1).1 =
      ((100 : Int) : ℚ) * (3 / 1000) := rfl
  refine ⟨by decide, by decide, by decide, ?_, by decide, ?_⟩
  · rw [hg]; norm_num
  · rw [hv]; norm_num

/-! ## Device encodings -/

/-- C14: for every channel `c` and gain code `g` in 0..7 the config byte built by
`startConversion()` is `0x81 | (c << 4) | (g << 1)` (and the low byte is 0xE3), and
the decoding of `poll()` returns `c` and `g` from it and from every byte that
agrees with it on the bits 1..6, whatever its ready bit (bit 7) and its bit 0. -/
theorem C14_config_roundtrip (c g : Nat) (hc : c < 8) (hg : g < 8) :
    (configBytes c g).1 = 0x81 ||| (c <<< 4) ||| (g <<< 1) ∧ (configBytes c g).1 < 256 ∧
    (configBytes c g).2 = 0xE3 ∧
    ((configBytes c g).1 &&& 0x70) >>> 4 = c ∧ ((configBytes c g).1 &&& 0x0E) >>> 1 = g ∧
    ∀ x, x &&& 0x7E = (configBytes c g).1 &&& 0x7E →
      (x &&& 0x70) >>> 4 = c ∧ (x &&& 0x0E) >>> 1 = g := by
  have hbase : (configBytes c g).1 = 0x81 ||| (c <<< 4) ||| (g <<< 1) ∧
      (configBytes c g).1 < 256 ∧ (configBytes c g).2 = 0xE3 ∧
      ((configBytes c g).1 &&& 0x70) >>> 4 = c ∧ ((configBytes c g).1 &&& 0x0E) >>> 1 = g := by
    interval_cases c <;> interval_cases g <;> decide
  obtain ⟨e1, e2, e3, e4, e5⟩ := hbase
  refine ⟨e1, e2, e3, e4, e5, ?_⟩
  intro x hx
  have m1 : ∀ y, y &&& 0x70 = (y &&& 0x7E) &&& 0x70 := by
    intro y; rw [Nat.and_assoc, show (0x7E &&& 0x70 : Nat) = 0x70 from by decide]
  have m2 : ∀ y, y &&& 0x0E = (y &&& 0x7E) &&& 0x0E := by
    intro y; rw [Nat.and_assoc, show (0x7E &&& 0x0E : Nat) = 0x0E from by decide]
  constructor
  · rw [m1 x, hx, ← m1]; exact e4
  · rw [m2 x, hx, ← m2]; exact e5

/-- C14 (witness): channel 5 at gain code 3 gives the byte `0xD7`; the same byte with
the ready bit cleared and bit 0 cleared, `0x56`, decodes to the same pair. -/
theorem C14_config_roundtrip_witness :
    ((5 : Nat) < 8 ∧ (3 : Nat) < 8) ∧
    ((configBytes 5 3).1 = 0x81 ||| (5 <<< 4) ||| (3 <<< 1) ∧ (configBytes 5 3).1 < 256 ∧
    (configBytes 5 3).2 = 0xE3 ∧
    ((configBytes 5 3).1 &&& 0x70) >>> 4 = 5 ∧ ((configBytes 5 3).1 &&& 0x0E) >>> 1 = 3 ∧
    ∀ x, x &&& 0x7E = (configBytes 5 3).1 &&& 0x7E →
      (x &&& 0x70) >>> 4 = 5 ∧ (x &&& 0x0E) >>> 1 = 3) ∧
    (configBytes 5 3).1 = 0xD7 ∧ (0x56 &&& 0x70) >>> 4 = 5 ∧ (0x56 &&& 0x0E) >>> 1 = 3 :=
  ⟨by decide, C14_config_roundtrip 5 3 (by decide) (by decide), by decide, by decide,
    by decide⟩

set_option maxRecDepth 100000 in
theorem word12_facts_split :
    ∀ a, a < 64 → ∀ b, b < 64 →
      (((64 * a + b) &&& 0x0800 ≠ 0 ↔ 2048 ≤ 64 * a + b) ∧
        (64 * a + b) ^^^ 0xFFF = 4095 - (64 * a + b)) := by
  decide

/-- On a 12-bit word the sign test and the bit toggle of `poll()` are the
arithmetic ones. -/
theorem word12_facts (w : Nat) (hw : w < 4096) :
    (w &&& 0x0800 ≠ 0 ↔ 2048 ≤ w) ∧ w ^^^ 0xFFF = 4095 - w := by
  have h := word12_facts_split (w / 64) (by omega) (w % 64) (by omega)
  have e : 64 * (w / 64) + w % 64 = w := by omega
  rw [e] at h
  exact h

/-- The 12-bit word assembled from the two result bytes. -/
theorem word12_compose (hi lo : Nat) (hlo : lo < 256) :
    (hi <<< 4) ||| (lo >>> 4) = 16 * hi + lo / 16 := by
  have h : lo / 16 < 2 ^ 4 := by norm_num; omega
  rw [Nat.shiftLeft_eq, Nat.shiftRight_eq_div_pow, Nat.mul_comm hi (2 ^ 4),
    ← Nat.mul_add_lt_is_or h hi]

/-- C15: for result bytes `hi`, `lo` in 0..255 the sample reconstructed by `poll()`
is the two's-complement value of the 12-bit word `w = (hi << 4) | (lo >> 4)`:
`w` when `w < 2048` and `w - 4096` otherwise; it lies in -2048..2047 and does not
depend on the low 4 bits of `lo`. -/
theorem C15_twos_complement (hi lo : Nat) (hhi : hi < 256) (hlo : lo < 256) :
    (hi <<< 4) ||| (lo >>> 4) = 16 * hi + lo / 16 ∧
    (hi <<< 4) ||| (lo >>> 4) < 4096 ∧
    composeResult hi lo =
      (if (hi <<< 4) ||| (lo >>> 4) < 2048 then (((hi <<< 4) ||| (lo >>> 4) : Nat) : Int)
        else (((hi <<< 4) ||| (lo >>> 4) : Nat) : Int) - 4096) ∧
    -2048 ≤ composeResult hi lo ∧ composeResult hi lo ≤ 2047 ∧
    composeResult hi lo = composeResult hi (lo - lo % 16) := by
  have hw := word12_compose hi lo hlo
  have hw' := word12_compose hi (lo - lo % 16) (by omega)
  have hlt : 16 * hi + lo / 16 < 4096 := by omega
  have hval : composeResult hi lo =
      (if 16 * hi + lo / 16 < 2048 then ((16 * hi + lo / 16 : Nat) : Int)
        else ((16 * hi + lo / 16 : Nat) : Int) - 4096) := by
    unfold composeResult
    simp only []
    rw [hw]
    obtain ⟨f1, f2⟩ := word12_facts _ hlt
    by_cases h : 2048 ≤ 16 * hi + lo / 16
    · rw [if_pos (f1.mpr h), if_neg (by omega), f2]
      omega
    · rw [if_neg (fun hn => h (f1.mp hn)), if_pos (by omega)]
  refine ⟨hw, by rw [hw]; exact hlt, by rw [hw]; exact hval, ?_, ?_, ?_⟩
  · rw [hval]; split_ifs <;> omega
  · rw [hval]; split_ifs <;> omega
  · unfold composeResult
    simp only []
    rw [hw, hw']
    have : (lo - lo % 16) / 16 = lo / 16 := by omega
    rw [this]

/-- C15 (witness): the bytes `0xFF 0xF0` give -1, the bytes `0x80 0x0F` give -2048. -/
theorem C15_twos_complement_witness :
    ((0x80 : Nat) < 256 ∧ (0x0F : Nat) < 256) ∧
    ((0x80 <<< 4) ||| (0x0F >>> 4) = 16 * 0x80 + 0x0F / 16 ∧
    (0x80 <<< 4) ||| (0x0F >>> 4) < 4096 ∧
    composeResult 0x80 0x0F =
      (if (0x80 <<< 4) ||| (0x0F >>> 4) < 2048 then (((0x80 <<< 4) ||| (0x0F >>> 4) : Nat) : Int)
        else (((0x80 <<< 4) ||| (0x0F >>> 4) : Nat) : Int) - 4096) ∧
    -2048 ≤ composeResult 0x80 0x0F ∧ composeResult 0x80 0x0F ≤ 2047 ∧
    composeResult 0x80 0x0F = composeResult 0x80 (0x0F - 0x0F % 16)) ∧
    composeResult 0x80 0x0F = -2048 ∧ composeResult 0xFF 0xF0 = -1 :=
  ⟨by decide, C15_twos_complement 0x80 0x0F (by decide) (by decide), by decide, by decide⟩

/-! ## Initialisation of the gain administration -/

theorem nibble_testBit (x k b : Nat) :
    (nibble x k).testBit b = (x.testBit (4 * k + b) && decide (b < 4)) := by
  have h15 : (0xF : Nat) = 2 ^ 4 - 1 := by norm_num
  unfold nibble
  rw [h15, Nat.testBit_and, Nat.testBit_shiftRight, Nat.testBit_two_pow_sub_one]

/-- Two nibbles with the same four bits are equal. -/
theorem nibble_congr (x y k j : Nat)
    (h : ∀ b, b < 4 → x.testBit (4 * k + b) = y.testBit (4 * j + b)) :
    nibble x k = nibble y j := by
  apply Nat.eq_of_testBit_eq
  intro b
  rw [nibble_testBit, nibble_testBit]
  by_cases hb : b < 4
  · rw [h b hb]
  · simp [hb]

theorem nibble_lt (x k : Nat) : nibble x k < 16 := by
  have h15 : (0xF : Nat) = 2 ^ 4 - 1 := by norm_num
  unfold nibble
  rw [h15, Nat.and_pow_two_sub_one_eq_mod]
  exact Nat.mod_lt _ (by norm_num)

/-- A nibble whose bits are those of a number below 16 is that number. -/
theorem nibble_eq_const (x k v : Nat) (hv : v < 16)
    (h : ∀ b, b < 4 → x.testBit (4 * k + b) = v.testBit b) : nibble x k = v := by
  apply Nat.eq_of_testBit_eq
  intro b
  rw [nibble_testBit]
  by_cases hb : b < 4
  · rw [h b hb]; simp [hb]
  · have hv' : v < 2 ^ b := by
      calc v < 2 ^ 4 := by norm_num; exact hv
        _ ≤ 2 ^ b := Nat.pow_le_pow_right (by norm_num) (by omega)
    rw [Nat.testBit_lt_two_pow hv']
    simp [hb]

/-- Clearing nibble `k` leaves the other seven nibbles as they are. -/
theorem nibble_clear_other (p k j : Nat) (hk : k ≤ 7) (hj : j ≤ 7) (hne : j ≠ k) :
    nibble (clearAGAnibble p k) j = nibble p j := by
  apply nibble_congr
  intro b hb
  rw [clearAGAnibble_testBit _ _ _ hk]
  have h32 : 4 * j + b < 32 := by omega
  have hout : ¬ (4 * k ≤ 4 * j + b ∧ 4 * j + b < 4 * k + 4) := by omega
  by_cases h1 : 4 * k ≤ 4 * j + b
  · have h2 : ¬ 4 * j + b < 4 * k + 4 := fun h => hout ⟨h1, h⟩
    simp [h32, h1, h2]
  · simp [h32, h1]

/-- Clearing nibble `k` makes it 0. -/
theorem nibble_clear_self (p k : Nat) (hk : k ≤ 7) : nibble (clearAGAnibble p k) k = 0 := by
  apply nibble_eq_const _ _ _ (by norm_num)
  intro b hb
  rw [clearAGAnibble_testBit _ _ _ hk]
  have h1 : 4 * k ≤ 4 * k + b := by omega
  have h2 : 4 * k + b < 4 * k + 4 := by omega
  simp [h1, h2]

theorem ulong_testBit (x n : Nat) : (ulong x).testBit n = (decide (n < 32) && x.testBit n) := by
  have h : (4294967296 : Nat) = 2 ^ 32 := by norm_num
  unfold ulong
  rw [h, Nat.testBit_mod_two_pow]

theorem five_testBit_high (m : Nat) (hm : 3 ≤ m) : Nat.testBit 5 m = false := by
  apply Nat.testBit_lt_two_pow
  calc 5 < 2 ^ 3 := by norm_num
    _ ≤ 2 ^ m := Nat.pow_le_pow_right (by norm_num) hm

/-- Bits of the word in which nibble `i` has been replaced by 5. -/
theorem setFive_testBit (p i n : Nat) (hn : n < 32) :
    (ulong (clearAGAnibble p i ||| ulong (0x5 <<< (4 * i)))).testBit n =
      ((clearAGAnibble p i).testBit n || (decide (4 * i ≤ n) && Nat.testBit 5 (n - 4 * i))) := by
  rw [ulong_testBit, Nat.testBit_or, ulong_testBit, Nat.testBit_shiftLeft]
  simp [hn]

/-- One step of the first loop of `begin()`: nibble `i` becomes `min n_i 5`, the
others stay. -/
theorem nibble_norm_step (p i j : Nat) (hi : i ≤ 7) (hj : j ≤ 7) :
    nibble (if (p >>> (4 * i)) &&& 0xF > 0x5 then
        ulong (clearAGAnibble p i ||| ulong (0x5 <<< (4 * i))) else p) j =
      if j = i then min (nibble p i) 5 else nibble p j := by
  have hn : (p >>> (4 * i)) &&& 0xF = nibble p i := rfl
  rw [hn]
  by_cases hgt : nibble p i > 5
  · rw [if_pos hgt]
    by_cases hji : j = i
    · rw [if_pos hji, hji, Nat.min_eq_right (by omega)]
      apply nibble_eq_const _ _ _ (by norm_num)
      intro b hb
      rw [setFive_testBit _ _ _ (by omega), clearAGAnibble_testBit _ _ _ hi]
      have h1 : 4 * i ≤ 4 * i + b := by omega
      have h2 : 4 * i + b < 4 * i + 4 := by omega
      simp [h1, h2]
    · rw [if_neg hji, ← nibble_clear_other p i j hi hj hji]
      apply nibble_congr
      intro b hb
      rw [setFive_testBit _ _ _ (by omega)]
      by_cases h1 : 4 * i ≤ 4 * j + b
      · have h3 : 3 ≤ 4 * j + b - 4 * i := by omega
        rw [five_testBit_high _ h3]
        simp
      · simp [h1]
  · rw [if_neg hgt]
    by_cases hji : j = i
    · rw [if_pos hji, hji, Nat.min_eq_left (by omega)]
    · rw [if_neg hji]

/-- The first loop of `begin()` over any list of channels. -/
theorem nibble_norm_fold (l : List Nat) (hl : ∀ i, i ∈ l → i ≤ 7) :
    ∀ p j, j ≤ 7 →
      nibble (l.foldl (fun p i =>
        if (p >>> (4 * i)) &&& 0xF > 0x5 then
          ulong (clearAGAnibble p i ||| ulong (0x5 <<< (4 * i)))
        else p) p) j =
      if j ∈ l then min (nibble p j) 5 else nibble p j := by
  induction l with
  | nil => intro p j _; simp
  | cons i l ih =>
    intro p j hj
    have hi : i ≤ 7 := hl i (List.mem_cons_self i l)
    rw [List.foldl_cons, ih (fun k hk => hl k (List.mem_cons_of_mem i hk)) _ j hj,
      nibble_norm_step p i j hi hj]
    by_cases hji : j = i
    · subst hji
      simp only [if_pos rfl, List.mem_cons, true_or, if_true]
      split_ifs <;> omega
    · simp only [if_neg hji, List.mem_cons, hji, false_or, if_false]

/-- After the first loop of `begin()` every nibble of `_setPGA` is `min n_i 5`. -/
theorem nibble_normalizeSetPGA (setPGA j : Nat) (hj : j ≤ 7) :
    nibble (normalizeSetPGA setPGA) j = min (nibble setPGA j) 5 := by
  unfold normalizeSetPGA
  rw [nibble_norm_fold (List.range 8) (fun i hi => by rw [List.mem_range] at hi; omega) _ j hj,
    if_pos (by rw [List.mem_range]; omega)]

/-- One step of the second loop of `begin()`. -/
theorem nibble_init_step (auto p i j : Nat) (hi : i ≤ 7) (hj : j ≤ 7) :
    nibble (if auto &&& (1 <<< i) ≠ 0 then clearAGAnibble p i else p) j =
      if j = i ∧ auto &&& (1 <<< i) ≠ 0 then 0 else nibble p j := by
  by_cases ha : auto &&& (1 <<< i) ≠ 0
  · rw [if_pos ha]
    by_cases hji : j = i
    · rw [if_pos ⟨hji, ha⟩, hji, nibble_clear_self p i hi]
    · rw [if_neg (fun h => hji h.1), nibble_clear_other p i j hi hj hji]
  · rw [if_neg ha, if_neg (fun h => ha h.2)]

/-- The second loop of `begin()` over any list of channels. -/
theorem nibble_init_fold (auto : Nat) (l : List Nat) (hl : ∀ i, i ∈ l → i ≤ 7) :
    ∀ p j, j ≤ 7 →
      nibble (l.foldl (fun p i =>
        if auto &&& (1 <<< i) ≠ 0 then clearAGAnibble p i else p) p) j =
      if j ∈ l ∧ auto &&& (1 <<< j) ≠ 0 then 0 else nibble p j := by
  induction l with
  | nil => intro p j _; simp
  | cons i l ih =>
    intro p j hj
    have hi : i ≤ 7 := hl i (List.mem_cons_self i l)
    rw [List.foldl_cons, ih (fun k hk => hl k (List.mem_cons_of_mem i hk)) _ j hj,
      nibble_init_step auto p i j hi hj]
    by_cases hji : j = i
    · subst hji
      by_cases ha : auto &&& (1 <<< j) ≠ 0
      · simp [ha]
      · simp [ha]
    · simp only [List.mem_cons, hji, false_or, false_and, if_false]

/-- After the second loop of `begin()` the nibbles of the auto-gain inputs are 0
and the others are those of the word the loop started from. -/
theorem nibble_initCurrentPGA (auto setPGA j : Nat) (hj : j ≤ 7) :
    nibble (initCurrentPGA auto setPGA) j =
      if auto &&& (1 <<< j) ≠ 0 then 0 else nibble setPGA j := by
  unfold initCurrentPGA
  rw [nibble_init_fold auto (List.range 8) (fun i hi => by rw [List.mem_range] at hi; omega)
    _ j hj]
  have hmem : j ∈ List.range 8 := by rw [List.mem_range]; omega
  by_cases ha : auto &&& (1 <<< j) ≠ 0
  · rw [if_pos ⟨hmem, ha⟩, if_pos ha]
  · rw [if_neg (fun h => ha h.2), if_neg ha]

/-- The 3-bit code that `poll()` and `startConversion()` read is the nibble modulo 8. -/
theorem readPGA_eq_nibble_mod (x k : Nat) : readPGA x k = nibble x k % 8 := by
  have h15 : (0xF : Nat) = 2 ^ 4 - 1 := by norm_num
  have h7 : (0x7 : Nat) = 2 ^ 3 - 1 := by norm_num
  unfold readPGA nibble
  rw [h15, h7, Nat.and_pow_two_sub_one_eq_mod, Nat.and_pow_two_sub_one_eq_mod]
  norm_num

/-- The gain administration after `begin()` on a present device. -/
theorem begin_words (s : Driver) (endTx : Nat) :
    (begin s 0 endTx).2.1._setPGA = normalizeSetPGA s._setPGA ∧
    (begin s 0 endTx).2.1._currentPGA =
      initCurrentPGA s._autoGainAdjust (normalizeSetPGA s._setPGA) := by
  unfold begin
  simp only [ne_eq, not_true_eq_false, if_false]
  exact ⟨(startConversion_frame _ endTx).2.2.2.1, (startConversion_frame _ endTx).2.2.2.2.1⟩

/-- C16: after `begin()` on a present device, for every channel `i` in 0..7 and
every configured word `setPGA` with nibble `n_i`, the ceiling of channel `i` is
`min n_i 5` and the current gain code of channel `i` is 0 if `i` is in the auto-gain
mask and that ceiling otherwise; every current code is at most its ceiling, which
is at most 5, and the 3-bit reads of `poll()` and `startConversion()` return these
values. -/
theorem C16_begin_gain_init (s : Driver) (endTx i : Nat) (hi : i ≤ 7) :
    nibble (begin s 0 endTx).2.1._setPGA i = min (nibble s._setPGA i) 5 ∧
    nibble (begin s 0 endTx).2.1._currentPGA i =
      (if s._autoGainAdjust &&& (1 <<< i) ≠ 0 then 0 else min (nibble s._setPGA i) 5) ∧
    nibble (begin s 0 endTx).2.1._currentPGA i ≤ nibble (begin s 0 endTx).2.1._setPGA i ∧
    nibble (begin s 0 endTx).2.1._setPGA i ≤ 5 ∧
    readPGA (begin s 0 endTx).2.1._setPGA i = min (nibble s._setPGA i) 5 ∧
    readPGA (begin s 0 endTx).2.1._currentPGA i =
      (if s._autoGainAdjust &&& (1 <<< i) ≠ 0 then 0 else min (nibble s._setPGA i) 5) := by
  obtain ⟨h1, h2⟩ := begin_words s endTx
  have hset : nibble (begin s 0 endTx).2.1._setPGA i = min (nibble s._setPGA i) 5 := by
    rw [h1, nibble_normalizeSetPGA _ _ hi]
  have hcur : nibble (begin s 0 endTx).2.1._currentPGA i =
      (if s._autoGainAdjust &&& (1 <<< i) ≠ 0 then 0 else min (nibble s._setPGA i) 5) := by
    rw [h2, nibble_initCurrentPGA _ _ _ hi, nibble_normalizeSetPGA _ _ hi]
  have h5 : min (nibble s._setPGA i) 5 ≤ 5 := Nat.min_le_right _ _
  refine ⟨hset, hcur, ?_, ?_, ?_, ?_⟩
  · rw [hset, hcur]; split_ifs <;> omega
  · rw [hset]; exact h5
  · rw [readPGA_eq_nibble_mod, hset]; omega
  · rw [readPGA_eq_nibble_mod, hcur]; split_ifs <;> omega

/-- C16 (witness): `setPGA = 0x0F6A5203`, auto gain on the inputs 0 and 4: channel 4
(nibble 0xA) has ceiling 5 and code 0, channel 5 (nibble 6) has ceiling and code 5,
channel 1 (nibble 0) has both 0, channel 2 (nibble 2) has both 2. -/
theorem C16_begin_gain_init_witness :
    ((4 : Nat) ≤ 7) ∧
    (nibble (begin { demoDriver with _setPGA := 0x0F6A5203, _autoGainAdjust := 0x11 } 0 0).2.1._setPGA
        4 = min (nibble 0x0F6A5203 4) 5 ∧
      nibble
        (begin { demoDriver with _setPGA := 0x0F6A5203, _autoGainAdjust := 0x11 } 0 0).2.1._currentPGA
        4 = 0) ∧
    (begin { demoDriver with _setPGA := 0x0F6A5203, _autoGainAdjust := 0x11 } 0 0).2.1._setPGA =
      0x05555203 ∧
    (begin { demoDriver with _setPGA := 0x0F6A5203, _autoGainAdjust := 0x11 } 0 0).2.1._currentPGA =
      0x05505200 :=
  ⟨by decide,
    ⟨(C16_begin_gain_init { demoDriver with _setPGA := 0x0F6A5203, _autoGainAdjust := 0x11 } 0 4
        (by decide)).1,
      (C16_begin_gain_init { demoDriver with _setPGA := 0x0F6A5203, _autoGainAdjust := 0x11 } 0 4
        (by decide)).2.1⟩,
    by decide, by decide⟩

/-! ## The completed sample and the next conversion -/

theorem readPGA_le (x k : Nat) : readPGA x k ≤ 7 := Nat.and_le_right

theorem configBytes_eq (c g : Nat) (hc : c ≤ 7) (hg : g ≤ 7) :
    configBytes c g = (0x81 ||| (c <<< 4) ||| (g <<< 1), 0xE3) := by
  interval_cases c <;> interval_cases g <;> decide

/-- `startConversion()` after a sample of input `m`, with a non-empty mask: the next
channel is the one the scan finds, its gain code is read from the gain word and
the command is written; the returned byte is 0, or 254 if the write fails. -/
theorem startConversion_ok (t : Driver) (endTx m : Nat) (hsel : t._inputSelect ≠ 0)
    (hbyte : t._inputSelect < 256) (hm : m ≤ 7) (hav : t._available = byte (1 <<< m)) :
    startConversion t endTx =
      (if endTx ≠ 0 then 254 else 0,
        { t with PGA := readPGA t._currentPGA (nextChannel t._inputSelect m) },
        [BusOp.write t._I2Caddr [configReg,
          (configBytes (nextChannel t._inputSelect m)
            (readPGA t._currentPGA (nextChannel t._inputSelect m))).1,
          (configBytes (nextChannel t._inputSelect m)
            (readPGA t._currentPGA (nextChannel t._inputSelect m))).2]]) := by
  obtain ⟨k, hk, _, _, hval⟩ :=
    scanNext_spec t._inputSelect (some m) hbyte hsel (fun m' h => by cases h; exact hm)
  have hval' : scanNext t._inputSelect (byte (1 <<< m)) = (k, (scanStart (some m) + k) % 8) :=
    hval
  have hk7 : ¬ k > 7 := by omega
  unfold startConversion nextChannel readPGA
  simp only [hav, hval', if_neg hk7]
  split_ifs <;> rfl

/-- The value returned by `poll()` after a completed sample, the availability bit
it leaves and the command it writes. -/
theorem pollFinish_result (s : Driver) (configMSb : Nat) (result : Int) (startEnd : Nat)
    (hsel : s._inputSelect ≠ 0) (hbyte : s._inputSelect < 256) :
    (pollFinish s configMSb result startEnd).1 =
      (if startEnd ≠ 0 then 254
        else if (adjustGain s ((configMSb &&& 0x70) >>> 4) ((configMSb &&& 0x0E) >>> 1)
            result).2.2 = true
          then (configMSb &&& 0x70) >>> 4 + 1 else 0) ∧
    (pollFinish s configMSb result startEnd).2.1._available =
      (if startEnd = 0 ∧ (adjustGain s ((configMSb &&& 0x70) >>> 4)
            ((configMSb &&& 0x0E) >>> 1) result).2.2 = false
        then 0 else 1 <<< ((configMSb &&& 0x70) >>> 4)) ∧
    (pollFinish s configMSb result startEnd).2.1.PGA =
      readPGA (adjustGain s ((configMSb &&& 0x70) >>> 4) ((configMSb &&& 0x0E) >>> 1)
          result).2.1 (nextChannel s._inputSelect ((configMSb &&& 0x70) >>> 4)) ∧
    (pollFinish s configMSb result startEnd).2.2 =
      [BusOp.write s._I2Caddr [configReg,
        (configBytes (nextChannel s._inputSelect ((configMSb &&& 0x70) >>> 4))
          (readPGA (adjustGain s ((configMSb &&& 0x70) >>> 4) ((configMSb &&& 0x0E) >>> 1)
            result).2.1 (nextChannel s._inputSelect ((configMSb &&& 0x70) >>> 4)))).1,
        (configBytes (nextChannel s._inputSelect ((configMSb &&& 0x70) >>> 4))
          (readPGA (adjustGain s ((configMSb &&& 0x70) >>> 4) ((configMSb &&& 0x0E) >>> 1)
            result).2.1 (nextChannel s._inputSelect ((configMSb &&& 0x70) >>> 4)))).2]] := by
  have hm7 := decode_MUX_le configMSb
  have hbm : byte (1 <<< ((configMSb &&& 0x70) >>> 4)) = 1 <<< ((configMSb &&& 0x70) >>> 4) :=
    (scanAvailable_shift _ hm7).2.2
  have hret : byte ((configMSb &&& 0x70) >>> 4 + 1) = (configMSb &&& 0x70) >>> 4 + 1 := by
    unfold byte; omega
  have hc := startConversion_ok
    { s with
      PGA := (adjustGain s ((configMSb &&& 0x70) >>> 4) ((configMSb &&& 0x0E) >>> 1) result).1
      _gain := (gainTable ((configMSb &&& 0x0E) >>> 1)).1
      _precision := (gainTable ((configMSb &&& 0x0E) >>> 1)).2
      _currentPGA :=
        (adjustGain s ((configMSb &&& 0x70) >>> 4) ((configMSb &&& 0x0E) >>> 1) result).2.1
      _voltage := (result : ℚ) * (gainTable ((configMSb &&& 0x0E) >>> 1)).1
      _available := byte (1 <<< ((configMSb &&& 0x70) >>> 4)) }
    startEnd ((configMSb &&& 0x70) >>> 4) hsel hbyte hm7 rfl
  unfold pollFinish
  simp only []
  rw [hc]
  simp only []
  by_cases he : startEnd ≠ 0
  · have he' : ¬ startEnd = 0 := he
    simp only [if_pos he, ne_eq, he', not_false_eq_true, if_true, false_and, if_false,
      hbm, and_self]
    norm_num
  · have he' : startEnd = 0 := not_not.mp he
    cases hf : (adjustGain s ((configMSb &&& 0x70) >>> 4) ((configMSb &&& 0x0E) >>> 1)
        result).2.2 with
    | true => simp [he', hf, hbm, hret]
    | false => simp [he', hf]

/-- The channel chosen after a sample of input `m`: the first selected position
counted cyclically from `m + 1`. -/
theorem nextChannel_spec (mask m : Nat) (hmask : mask < 256) (hne : mask ≠ 0) (hm : m ≤ 7) :
    nextChannel mask m ≤ 7 ∧ enabled mask (nextChannel mask m) ∧
    ∃ k, k ≤ 7 ∧ nextChannel mask m = (m + 1 + k) % 8 ∧
      ∀ k', k' < k → ¬ enabled mask ((m + 1 + k') % 8) := by
  obtain ⟨k, hk, hen, hleast, hval⟩ :=
    scanNext_spec mask (some m) hmask hne (fun m' h => by cases h; exact hm)
  have hn : nextChannel mask m = (m + 1 + k) % 8 := by
    unfold nextChannel
    have hval' : scanNext mask (byte (1 <<< m)) = (k, (scanStart (some m) + k) % 8) := hval
    rw [hval']
    rfl
  refine ⟨?_, ?_, k, hk, hn, hleast⟩
  · rw [hn]; omega
  · rw [hn]; exact hen

/-- C17: when `poll()` completes a sample of a channel `m` that is not in the
auto-gain mask, for every raw value and every echoed gain code the gain word, and
with it the gain code of every channel, is left unchanged and overflow is not
flagged; when the start-conversion write succeeds the call returns `m + 1` and
leaves the availability bit of `m` set. -/
theorem C17_fixed_gain_channel (s : Driver) (w : WireReplies) (m : Nat)
    (hsel : s._inputSelect ≠ 0) (hbyte : s._inputSelect < 256) (hav : s._available = 0)
    (h1 : w.statusPtrEnd = 0) (h2 : w.statusAvail = 1)
    (h3 : byte w.statusByte &&& 0x80 ≠ 0) (h4 : w.resultPtrEnd = 0) (h5 : w.resultAvail = 2)
    (hm : (byte w.statusByte &&& 0x70) >>> 4 = m)
    (hfix : s._autoGainAdjust &&& (1 <<< m) = 0) :
    (poll s w).2.1._currentPGA = s._currentPGA ∧
    (∀ c, readPGA (poll s w).2.1._currentPGA c = readPGA s._currentPGA c) ∧
    (adjustGain s m ((byte w.statusByte &&& 0x0E) >>> 1)
      (composeResult w.resultHi w.resultLo)).2.2 = true ∧
    (w.startEnd = 0 → (poll s w).1 = m + 1 ∧ (poll s w).2.1._available = 1 <<< m) := by
  have hadj : adjustGain s m ((byte w.statusByte &&& 0x0E) >>> 1)
      (composeResult w.resultHi w.resultLo) =
      ((byte w.statusByte &&& 0x0E) >>> 1, s._currentPGA, true) := by
    unfold adjustGain
    rw [if_neg (not_not.mpr hfix)]
  have hc := pollFinish_cache s (byte w.statusByte) (composeResult w.resultHi w.resultLo)
    w.startEnd
  have hr := pollFinish_result s (byte w.statusByte) (composeResult w.resultHi w.resultLo)
    w.startEnd hsel hbyte
  have hs := poll_completed_state s w hsel hav h1 h2 h3 h4 h5
  rw [hm, hadj] at hc hr
  have hcur : (poll s w).2.1._currentPGA = s._currentPGA := by rw [hs, hc.2.2.2.1]
  refine ⟨hcur, fun c => by rw [hcur], by rw [hadj], ?_⟩
  intro he
  constructor
  · rw [poll_completed s w hsel hav h1 h2 h3 h4 h5]
    simp only []
    rw [hr.1, he]
    simp
  · rw [hs, hr.2.1, he]
    simp

/-- C17 (witness): input 0 of `demoDriver` with auto gain switched off and the
overflow-sized raw sample 2047. -/
theorem C17_fixed_gain_channel_witness :
    (({ demoDriver with _autoGainAdjust := 0 } : Driver)._inputSelect ≠ 0 ∧
      ({ demoDriver with _autoGainAdjust := 0 } : Driver)._available = 0 ∧
      byte overflowReplies.statusByte &&& 0x80 ≠ 0 ∧
      (byte overflowReplies.statusByte &&& 0x70) >>> 4 = 0 ∧
      ({ demoDriver with _autoGainAdjust := 0 } : Driver)._autoGainAdjust &&& (1 <<< 0) = 0 ∧
      composeResult overflowReplies.resultHi overflowReplies.resultLo = 2047 ∧
      overflowReplies.startEnd = 0) ∧
    (poll { demoDriver with _autoGainAdjust := 0 } overflowReplies).2.1._currentPGA =
      ({ demoDriver with _autoGainAdjust := 0 } : Driver)._currentPGA ∧
    (poll { demoDriver with _autoGainAdjust := 0 } overflowReplies).1 = 0 + 1 ∧
    (poll { demoDriver with _autoGainAdjust := 0 } overflowReplies).2.1._available = 1 <<< 0 :=
  ⟨by decide,
    (C17_fixed_gain_channel { demoDriver with _autoGainAdjust := 0 } overflowReplies 0
      (by decide) (by decide) rfl rfl rfl (by decide) rfl rfl (by decide) (by decide)).1,
    ((C17_fixed_gain_channel { demoDriver with _autoGainAdjust := 0 } overflowReplies 0
      (by decide) (by decide) rfl rfl rfl (by decide) rfl rfl (by decide) (by decide)).2.2.2
        rfl).1,
    ((C17_fixed_gain_channel { demoDriver with _autoGainAdjust := 0 } overflowReplies 0
      (by decide) (by decide) rfl rfl rfl (by decide) rfl rfl (by decide) (by decide)).2.2.2
        rfl).2⟩

/-- C18: when `poll()` completes a sample of channel `m` (overflowed or not), the
transactions it issues end with the start-conversion write of the bytes
`configReg`, `0x81 | (n << 4) | (g << 1)` and `0xE3`, where `n` is the first
selected channel counted cyclically from `m + 1` and `g` is the 3-bit code stored
for `n` in the gain word as this call's gain adjustment leaves it; `n` is `m` when
`m` is the only selected channel, and if then `m` has auto gain, `g` is the low
3 bits of the code just computed for `m`. -/
theorem C18_next_conversion_command (s : Driver) (w : WireReplies) (m : Nat)
    (hsel : s._inputSelect ≠ 0) (hbyte : s._inputSelect < 256) (hav : s._available = 0)
    (h1 : w.statusPtrEnd = 0) (h2 : w.statusAvail = 1)
    (h3 : byte w.statusByte &&& 0x80 ≠ 0) (h4 : w.resultPtrEnd = 0) (h5 : w.resultAvail = 2)
    (hm : (byte w.statusByte &&& 0x70) >>> 4 = m) :
    (poll s w).2.2 =
      [BusOp.write s._I2Caddr [configReg], BusOp.requestFrom s._I2Caddr 1,
        BusOp.write s._I2Caddr [conversReg], BusOp.requestFrom s._I2Caddr 2,
        BusOp.write s._I2Caddr [configReg,
          0x81 ||| (nextChannel s._inputSelect m <<< 4) |||
            (readPGA (poll s w).2.1._currentPGA (nextChannel s._inputSelect m) <<< 1),
          0xE3]] ∧
    (poll s w).2.1._currentPGA =
      (adjustGain s m ((byte w.statusByte &&& 0x0E) >>> 1)
        (composeResult w.resultHi w.resultLo)).2.1 ∧
    (poll s w).2.1.PGA = readPGA (poll s w).2.1._currentPGA (nextChannel s._inputSelect m) ∧
    nextChannel s._inputSelect m ≤ 7 ∧ enabled s._inputSelect (nextChannel s._inputSelect m) ∧
    (∃ k, k ≤ 7 ∧ nextChannel s._inputSelect m = (m + 1 + k) % 8 ∧
      ∀ k', k' < k → ¬ enabled s._inputSelect ((m + 1 + k') % 8)) ∧
    (s._inputSelect = 1 <<< m → nextChannel s._inputSelect m = m) ∧
    (s._inputSelect = 1 <<< m → s._autoGainAdjust &&& (1 <<< m) ≠ 0 →
      readPGA (poll s w).2.1._currentPGA (nextChannel s._inputSelect m) =
        (adjustGain s m ((byte w.statusByte &&& 0x0E) >>> 1)
          (composeResult w.resultHi w.resultLo)).1 % 8) := by
  have hm7 : m ≤ 7 := by rw [← hm]; exact decode_MUX_le _
  have hc := pollFinish_cache s (byte w.statusByte) (composeResult w.resultHi w.resultLo)
    w.startEnd
  have hr := pollFinish_result s (byte w.statusByte) (composeResult w.resultHi w.resultLo)
    w.startEnd hsel hbyte
  have hs := poll_completed_state s w hsel hav h1 h2 h3 h4 h5
  rw [hm] at hc hr
  obtain ⟨hn7, hnen, hnk⟩ := nextChannel_spec s._inputSelect m hbyte hsel hm7
  have hcur : (poll s w).2.1._currentPGA =
      (adjustGain s m ((byte w.statusByte &&& 0x0E) >>> 1)
        (composeResult w.resultHi w.resultLo)).2.1 := by rw [hs, hc.2.2.2.1]
  have hsingle : s._inputSelect = 1 <<< m → nextChannel s._inputSelect m = m := by
    intro hone
    rw [hone] at hnen
    rw [hone]
    exact single_bit m (by omega) _ (by rw [← hone]; omega) hnen
  refine ⟨?_, hcur, ?_, hn7, hnen, hnk, hsingle, ?_⟩
  · rw [poll_completed s w hsel hav h1 h2 h3 h4 h5]
    simp only []
    rw [hr.2.2.2, configBytes_eq _ _ hn7 (readPGA_le _ _), hc.2.2.2.1]
    rfl
  · rw [hs, hr.2.2.1, hc.2.2.2.1]
  · intro hone hauto
    rw [hsingle hone, hcur, adjustGain_auto _ _ _ _ hauto]
    simp only []
    rw [readPGA_storePGA _ _ _ hm7]

/-- C18 (witness): inputs 1 and 4 selected, channel 1 completes an overflowed
sample: the next command is for channel 4 at its stored code 2, the bytes `0x01`,
`0xC5`, `0xE3`. -/
theorem C18_next_conversion_command_witness :
    (({ demoDriver with _inputSelect := 18, _autoGainAdjust := 2, _currentPGA := 0x20030 } :
        Driver)._inputSelect ≠ 0 ∧
      byte ({ overflowReplies with statusByte := 0x96 } : WireReplies).statusByte &&& 0x80 ≠ 0 ∧
      (byte ({ overflowReplies with statusByte := 0x96 } : WireReplies).statusByte &&& 0x70) >>> 4
        = 1) ∧
    (poll { demoDriver with _inputSelect := 18, _autoGainAdjust := 2, _currentPGA := 0x20030 }
        { overflowReplies with statusByte := 0x96 }).2.2 =
      [BusOp.write 0x48 [configReg], BusOp.requestFrom 0x48 1,
        BusOp.write 0x48 [conversReg], BusOp.requestFrom 0x48 2,
        BusOp.write 0x48 [configReg,
          0x81 ||| (nextChannel 18 1 <<< 4) |||
            (readPGA (poll
              { demoDriver with _inputSelect := 18, _autoGainAdjust := 2, _currentPGA := 0x20030 }
              { overflowReplies with statusByte := 0x96 }).2.1._currentPGA
              (nextChannel 18 1) <<< 1),
          0xE3]] ∧
    nextChannel 18 1 = 4 ∧
    (poll { demoDriver with _inputSelect := 18, _autoGainAdjust := 2, _currentPGA := 0x20030 }
        { overflowReplies with statusByte := 0x96 }).2.1._currentPGA = 0x20000 ∧
    (0x81 ||| (4 <<< 4) ||| (2 <<< 1) : Nat) = 0xC5 :=
  ⟨by decide,
    (C18_next_conversion_command
      { demoDriver with _inputSelect := 18, _autoGainAdjust := 2, _currentPGA := 0x20030 }
      { overflowReplies with statusByte := 0x96 } 1 (by decide) (by decide) rfl rfl rfl
      (by decide) rfl rfl (by decide)).1,
    by decide, by decide, by decide⟩

/-! ## The other channels of the gain word -/

theorem nibble_eq_div_mod (x k : Nat) : nibble x k = x / 2 ^ (4 * k) % 16 := by
  have h15 : (0xF : Nat) = 2 ^ 4 - 1 := by norm_num
  unfold nibble
  rw [h15, Nat.and_pow_two_sub_one_eq_mod, Nat.shiftRight_eq_div_pow]

/-- Storing a code of at most 15 into nibble `m` leaves the nibbles of the other
channels as they are. -/
theorem nibble_storePGA_other (cur m c p : Nat) (hm : m ≤ 7) (hc : c ≤ 7) (hne : c ≠ m)
    (hp : p ≤ 15) : nibble (storePGA cur m p) c = nibble cur c := by
  rw [← nibble_clear_other cur m c hm hc hne]
  have h := clearAGAnibble_mod cur m hm
  have hlt := clearAGAnibble_lt cur m hm
  rw [nibble_eq_div_mod, nibble_eq_div_mod]
  unfold storePGA ulong
  rw [Nat.shiftLeft_eq]
  generalize clearAGAnibble cur m = A at h hlt ⊢
  interval_cases m <;> interval_cases c <;> first
    | exact absurd rfl hne
    | (norm_num at h ⊢ <;> omega)

/-- Outside the underflow case the code computed by the adjustment for an echoed
code `c ≤ 7` is one of 0..7. -/
theorem adjustPGA_le_seven (setPGA MUX c : Nat) (r : Int) (hc : c ≤ 7)
    (hno : ¬ (c = 0 ∧ 1945 < |r| ∧ |r| < 2045)) : (adjustPGA setPGA MUX c r).1 ≤ 7 := by
  by_cases h1 : |r| < 1024
  · rw [adjustPGA_increase _ _ _ _ h1]
    simp only []
    have hi : byte ((setPGA >>> (4 * MUX)) &&& 0x7) ≤ 7 := by
      have : (setPGA >>> (4 * MUX)) &&& 0x7 ≤ 7 := Nat.and_le_right
      unfold byte; omega
    split_ifs <;> omega
  · by_cases h2 : |r| ≤ 1945
    · rw [adjustPGA_hold _ _ _ _ (by omega) h2]; exact hc
    · by_cases h3 : 2045 ≤ |r|
      · rw [adjustPGA_overflow _ _ _ _ h3]; exact Nat.zero_le 7
      · have hc1 : 1 ≤ c := by
          by_contra h0
          exact hno ⟨by omega, by omega, by omega⟩
        rw [adjustPGA_decrease _ _ _ _ hc1 hc (by omega) (by omega)]
        simp only []
        omega

/-- Outside the underflow case the gain adjustment of an auto-gain channel `m`
leaves the nibbles of all other channels as they are. -/
theorem adjustGain_other_nibbles (s : Driver) (m c g : Nat) (r : Int) (hm : m ≤ 7)
    (hc : c ≤ 7) (hne : c ≠ m) (hg : g ≤ 7) (hno : ¬ (g = 0 ∧ 1945 < |r| ∧ |r| < 2045)) :
    nibble (adjustGain s m g r).2.1 c = nibble s._currentPGA c := by
  unfold adjustGain
  split_ifs
  · simp only []
    exact nibble_storePGA_other _ _ _ _ hm hc hne
      (le_trans (adjustPGA_le_seven _ _ _ _ hg hno) (by norm_num))
  · rfl

/-- C19 (evaluation at the failing input): the inputs 0, 1 and 2 are selected, input
0 has auto gain and completes the raw sample 2000 at the echoed gain code 0, the
gain word is `0x10` (channel 1 at code 1).  The decrement wraps `PGA` to 255 and the
word becomes `0x10F`: besides nibble 0, the nibble of channel 1 changes from 1 to 0
and the nibble of channel 2 from 0 to 1, and the next conversion is started for
channel 1 with gain code 0 instead of 1. -/
theorem C19_neighbour_nibbles_changed_on_underflow :
    threeInputDriver._autoGainAdjust &&& (1 <<< 0) ≠ 0 ∧
    composeResult decreaseReplies.resultHi decreaseReplies.resultLo = 2000 ∧
    (byte decreaseReplies.statusByte &&& 0x70) >>> 4 = 0 ∧
    (byte decreaseReplies.statusByte &&& 0x0E) >>> 1 = 0 ∧
    (poll threeInputDriver decreaseReplies).1 = 1 ∧
    threeInputDriver._currentPGA = 0x10 ∧
    (poll threeInputDriver decreaseReplies).2.1._currentPGA = 0x10F ∧
    nibble threeInputDriver._currentPGA 1 = 1 ∧
    nibble (poll threeInputDriver decreaseReplies).2.1._currentPGA 1 = 0 ∧
    nibble threeInputDriver._currentPGA 2 = 0 ∧
    nibble (poll threeInputDriver decreaseReplies).2.1._currentPGA 2 = 1 ∧
    (poll threeInputDriver decreaseReplies).2.2.getLast? =
      some (BusOp.write 0x48 [configReg, 0x81 ||| (1 <<< 4) ||| (0 <<< 1), 0xE3]) := by
  decide

/-! ## Settling of the gain adjustment -/

theorem gainTable_microVolts (c : Nat) : (gainTable c).1 = (microVolts c : ℚ) / 1000000 := by
  match c with
  | 0 => simp only [gainTable, microVolts]; norm_num
  | 1 => simp only [gainTable, microVolts]; norm_num
  | 2 => simp only [gainTable, microVolts]; norm_num
  | 3 => simp only [gainTable, microVolts]; norm_num
  | 4 => simp only [gainTable, microVolts]; norm_num
  | n + 5 => simp only [gainTable, microVolts]; norm_num

theorem microVolts_pos (c : Nat) : 0 < microVolts c := by
  match c with
  | 0 => decide
  | 1 => decide
  | 2 => decide
  | 3 => decide
  | 4 => decide
  | n + 5 => simp only [microVolts]; decide

/-- The re-expressed magnitude as a quotient of integers. -/
theorem recount_eq (c c' : Nat) (a : ℚ) :
    recount c c' a = a * (microVolts c : ℚ) / (microVolts c' : ℚ) := by
  unfold recount
  rw [gainTable_microVolts c, gainTable_microVolts c']
  have h : (microVolts c' : ℚ) ≠ 0 := by
    have := microVolts_pos c'
    exact_mod_cast (Nat.pos_iff_ne_zero.mp this)
  field_simp

/-- A code `c'` below or at the ceiling `L` is kept for a sample of at most 1945
counts that is either at the ceiling or not below the first threshold of `c'`. -/
theorem adjustPGA_stable (setPGA MUX c' L : Nat) (r' : Int)
    (hL : byte ((setPGA >>> (4 * MUX)) &&& 0x7) = L) (hc : c' ≤ L) (hL5 : L ≤ 5)
    (hb : |r'| ≤ 1945) (hcond : c' = L ∨ (threshold c' 0 : Int) ≤ |r'|) :
    adjustPGA setPGA MUX c' r' = (c', true) := by
  by_cases h1 : |r'| < 1024
  · obtain ⟨k, hk, hrun, _, hloop, _⟩ := gainLoop_search c' |r'| (by omega)
    rw [adjustPGA_increase _ _ _ _ h1, hL, hloop]
    simp only []
    have hk0 : c' = L ∨ k = 0 := by
      rcases hcond with h | h
      · exact Or.inl h
      · right
        by_contra hne
        have := hrun 0 (by omega)
        omega
    split_ifs with hgt
    · rcases hk0 with h | h
      · rw [h]
      · omega
    · rcases hk0 with h | h
      · have : k = 0 := by omega
        rw [this, Nat.add_zero]
      · rw [h, Nat.add_zero]
  · exact adjustPGA_hold _ _ _ _ (by omega) hb

set_option maxHeartbeats 2000000 in
/-- The numeric content of the increase case: with `k` the number of steps the loop
takes from code `c` and `c'` the clamped result, the magnitude re-expressed at `c'`
is below 1536 counts after an increase, at most 1945 counts in any case, and not
below the first threshold of `c'` unless `c'` is the ceiling. -/
theorem settle_increase (c k L : Nat) (a : Int) (h0 : 0 ≤ a) (ha : a < 1024)
    (hcL : c ≤ L) (hL5 : L ≤ 5) (hk : k ≤ 5 - c)
    (hA : k = 0 ∨ a < (threshold c (k - 1) : Int))
    (hB : k < 5 - c → (threshold c k : Int) ≤ a) :
    (c < min L (c + k) → a * (microVolts c : Int) < 1536 * (microVolts (min L (c + k)) : Int)) ∧
    a * (microVolts c : Int) ≤ 1945 * (microVolts (min L (c + k)) : Int) ∧
    (min L (c + k) = L ∨
      (threshold (min L (c + k)) 0 : Int) * (microVolts (min L (c + k)) : Int) ≤
        a * (microVolts c : Int)) := by
  have hc5 : c ≤ 5 := by omega
  interval_cases c <;> interval_cases L <;>
    (have hk' : k ≤ 5 := by omega) <;> interval_cases k <;>
    simp only [threshold, microVolts] at hA hB ⊢ <;> norm_num at hA hB ⊢ <;> omega

/-- The numeric content of the hold and decrease cases. -/
theorem settle_hold_decrease (c : Nat) (a : Int) (hc5 : c ≤ 5) :
    (1024 ≤ a → a ≤ 1945 →
      a * (microVolts c : Int) ≤ 1945 * (microVolts c : Int) ∧
      (threshold c 0 : Int) * (microVolts c : Int) ≤ a * (microVolts c : Int)) ∧
    (1 ≤ c → 1945 < a → a < 2045 →
      a * (microVolts c : Int) ≤ 1945 * (microVolts (c - 1) : Int) ∧
      (threshold (c - 1) 0 : Int) * (microVolts (c - 1) : Int) ≤ a * (microVolts c : Int)) := by
  interval_cases c <;> simp only [threshold, microVolts] <;> norm_num <;> omega

/-- An integer within one count of a quotient that is at most 1945 is at most 1945. -/
theorem within_one_le (X M b : Int) (hM : 0 < M) (h2 : X ≤ 1945 * M) (hb : b * M < X + M) :
    b ≤ 1945 := by
  have h : b * M < 1946 * M := by linarith
  have := lt_of_mul_lt_mul_right h (le_of_lt hM)
  omega

/-- An integer within one count of a quotient that is at least `T` is at least `T`. -/
theorem within_one_ge (X M T b : Int) (hM : 0 < M) (h3 : T * M ≤ X) (hb : X - M < b * M) :
    T ≤ b := by
  have h : (T - 1) * M < b * M := by linarith
  have := lt_of_mul_lt_mul_right h (le_of_lt hM)
  omega

/-- The gain adjustment on integers: the code `c'` it returns, with the numeric
facts on the magnitude re-expressed at `c'`. -/
theorem adjustPGA_settle (setPGA MUX c L : Nat) (r : Int)
    (hL : byte ((setPGA >>> (4 * MUX)) &&& 0x7) = L) (hcL : c ≤ L) (hL5 : L ≤ 5)
    (ha : |r| < 2045) (hex : ¬ (c = 0 ∧ 1945 < |r|)) :
    ∃ c', adjustPGA setPGA MUX c r = (c', true) ∧ c' ≤ L ∧
      (c < c' → |r| * (microVolts c : Int) < 1536 * (microVolts c' : Int)) ∧
      |r| * (microVolts c : Int) ≤ 1945 * (microVolts c' : Int) ∧
      (c' = L ∨
        (threshold c' 0 : Int) * (microVolts c' : Int) ≤ |r| * (microVolts c : Int)) := by
  have hc5 : c ≤ 5 := by omega
  by_cases h1 : |r| < 1024
  · obtain ⟨k, hk, hrun, hstop, hloop, _⟩ := gainLoop_search c |r| hc5
    have hA : k = 0 ∨ |r| < (threshold c (k - 1) : Int) := by
      by_cases hk0 : k = 0
      · exact Or.inl hk0
      · exact Or.inr (hrun (k - 1) (by omega))
    have hB : k < 5 - c → (threshold c k : Int) ≤ |r| := fun h => not_lt.mp (hstop h)
    obtain ⟨p1, p2, p3⟩ := settle_increase c k L |r| (abs_nonneg r) h1 hcL hL5 hk hA hB
    refine ⟨min L (c + k), ?_, Nat.min_le_left _ _, p1, p2, p3⟩
    rw [adjustPGA_increase _ _ _ _ h1, hL, hloop]
    simp only []
    by_cases hgt : c + k > L
    · rw [if_pos hgt, Nat.min_eq_left (by omega)]
    · rw [if_neg hgt, Nat.min_eq_right (by omega)]
  · by_cases h2 : |r| ≤ 1945
    · obtain ⟨q1, q2⟩ := (settle_hold_decrease c |r| hc5).1 (by omega) h2
      exact ⟨c, adjustPGA_hold _ _ _ _ (by omega) h2, hcL, fun h => absurd h (lt_irrefl c), q1,
        Or.inr q2⟩
    · have hc1 : 1 ≤ c := by
        by_contra h0
        exact hex ⟨by omega, by omega⟩
      obtain ⟨q1, q2⟩ := (settle_hold_decrease c |r| hc5).2 hc1 (by omega) ha
      exact ⟨c - 1, adjustPGA_decrease _ _ _ _ hc1 (by omega) (by omega) ha, by omega,
        fun h => absurd h (by omega), q1, Or.inr q2⟩

/-- C20: on an auto-gain channel with ceiling nibble `L ≤ 5`, for every echoed code
`c ≤ L` and every raw sample of magnitude below 2045 (code 0 with a magnitude
above 1945 excluded), the adjustment flags no overflow and returns a code
`c' ≤ L`; the same input re-expressed in counts at `c'`,
`a' = |raw| * scale c / scale c'`, is below 1536 after an increase and at most 1945
in every case, and for every sample whose magnitude is within one count of `a'`
(in particular `a'` itself when it is an integer, and both roundings otherwise) the
adjustment applied at `c'` returns `c'` again without flagging overflow. -/
theorem C20_settles_in_one_step (s : Driver) (MUX c L : Nat) (r : Int)
    (hauto : s._autoGainAdjust &&& (1 <<< MUX) ≠ 0)
    (hL : (s._setPGA >>> (4 * MUX)) &&& 0xF = L) (hcL : c ≤ L) (hL5 : L ≤ 5)
    (ha : |r| < 2045) (hex : ¬ (c = 0 ∧ 1945 < |r|)) :
    (adjustGain s MUX c r).2.2 = true ∧ (adjustGain s MUX c r).1 ≤ L ∧
    (c < (adjustGain s MUX c r).1 →
      recount c (adjustGain s MUX c r).1 ((|r| : Int) : ℚ) < 1536) ∧
    recount c (adjustGain s MUX c r).1 ((|r| : Int) : ℚ) ≤ 1945 ∧
    ∀ r' : Int,
      recount c (adjustGain s MUX c r).1 ((|r| : Int) : ℚ) - 1 < ((|r'| : Int) : ℚ) →
      ((|r'| : Int) : ℚ) < recount c (adjustGain s MUX c r).1 ((|r| : Int) : ℚ) + 1 →
      (adjustGain s MUX (adjustGain s MUX c r).1 r').1 = (adjustGain s MUX c r).1 ∧
      (adjustGain s MUX (adjustGain s MUX c r).1 r').2.2 = true := by
  have hceil := ceiling_read _ _ _ hL hL5
  obtain ⟨c', hadj, hc'L, p1, p2, p3⟩ :=
    adjustPGA_settle s._setPGA MUX c L r hceil hcL hL5 ha hex
  have hv : adjustGain s MUX c r = (c', storePGA s._currentPGA MUX c', true) := by
    rw [adjustGain_auto _ _ _ _ hauto, hadj]
  rw [hv]
  simp only []
  have hM : (0 : Int) < (microVolts c' : Int) := by exact_mod_cast microVolts_pos c'
  have hMq : (0 : ℚ) < ((microVolts c' : Int) : ℚ) := by exact_mod_cast hM
  have hq : recount c c' ((|r| : Int) : ℚ) =
      ((|r| * (microVolts c : Int) : Int) : ℚ) / ((microVolts c' : Int) : ℚ) := by
    rw [recount_eq]
    push_cast
    rfl
  rw [hq]
  refine ⟨trivial, hc'L, ?_, ?_, ?_⟩
  · intro h
    rw [div_lt_iff₀ hMq]
    exact_mod_cast p1 h
  · rw [div_le_iff₀ hMq]
    exact_mod_cast p2
  · intro r' hb1 hb2
    have e1 : ((|r| * (microVolts c : Int) : Int) : ℚ) <
        (((|r'| : Int) : ℚ) + 1) * ((microVolts c' : Int) : ℚ) := by
      rw [← div_lt_iff₀ hMq]; linarith
    have e2 : (((|r'| : Int) : ℚ) - 1) * ((microVolts c' : Int) : ℚ) <
        ((|r| * (microVolts c : Int) : Int) : ℚ) := by
      rw [← lt_div_iff₀ hMq]; linarith
    have i1 : |r| * (microVolts c : Int) < (|r'| + 1) * (microVolts c' : Int) := by
      exact_mod_cast e1
    have i2 : (|r'| - 1) * (microVolts c' : Int) < |r| * (microVolts c : Int) := by
      exact_mod_cast e2
    have hb : |r'| ≤ 1945 :=
      within_one_le (|r| * (microVolts c : Int)) (microVolts c' : Int) |r'| hM p2 (by linarith)
    have hcond : c' = L ∨ (threshold c' 0 : Int) ≤ |r'| := by
      rcases p3 with h | h
      · exact Or.inl h
      · exact Or.inr (within_one_ge (|r| * (microVolts c : Int)) (microVolts c' : Int) _ |r'|
          hM h (by linarith))
    have hst := adjustPGA_stable s._setPGA MUX c' L r' hceil hc'L hL5 hb hcond
    rw [adjustGain_auto _ _ _ _ hauto, hst]
    exact ⟨rfl, rfl⟩

/-- C20 (witness): the scenario input, code 0 with ceiling 5 and raw sample 100: the
adjustment returns code 4, the re-expressed magnitude is `100 * 0.003 / 0.00025 =
1200` counts, and a sample of 1200 counts at code 4 leaves the code at 4. -/
theorem C20_settles_in_one_step_witness :
    (scenarioDriver._autoGainAdjust &&& (1 <<< 0) ≠ 0 ∧
      (scenarioDriver._setPGA >>> (4 * 0)) &&& 0xF = 5 ∧ |(100 : Int)| < 2045 ∧
      ¬ ((0 : Nat) = 0 ∧ 1945 < |(100 : Int)|)) ∧
    ((adjustGain scenarioDriver 0 0 100).2.2 = true ∧ (adjustGain scenarioDriver 0 0 100).1 ≤ 5 ∧
    (0 < (adjustGain scenarioDriver 0 0 100).1 →
      recount 0 (adjustGain scenarioDriver 0 0 100).1 ((|(100 : Int)| : Int) : ℚ) < 1536) ∧
    recount 0 (adjustGain scenarioDriver 0 0 100).1 ((|(100 : Int)| : Int) : ℚ) ≤ 1945 ∧
    ∀ r' : Int,
      recount 0 (adjustGain scenarioDriver 0 0 100).1 ((|(100 : Int)| : Int) : ℚ) - 1 <
          ((|r'| : Int) : ℚ) →
      ((|r'| : Int) : ℚ) <
          recount 0 (adjustGain scenarioDriver 0 0 100).1 ((|(100 : Int)| : Int) : ℚ) + 1 →
      (adjustGain scenarioDriver 0 (adjustGain scenarioDriver 0 0 100).1 r').1 =
          (adjustGain scenarioDriver 0 0 100).1 ∧
      (adjustGain scenarioDriver 0 (adjustGain scenarioDriver 0 0 100).1 r').2.2 = true) ∧
    (adjustGain scenarioDriver 0 0 100).1 = 4 ∧ recount 0 4 100 = 1200 ∧
    (adjustGain scenarioDriver 0 4 1200).1 = 4 :=
  ⟨by decide,
    C20_settles_in_one_step scenarioDriver 0 0 5 100 (by decide) (by decide) (by decide)
      (by decide) (by decide) (by decide),
    by decide, by simp only [recount, gainTable]; norm_num, by decide⟩

end ADS1015
